import Mathlib

/-!
# get-md — verification of spec claims against a shallow embedding

This file embeds the core of the `get-md` HTML→Markdown conversion pipeline
(`src/parsers/markdown-parser.ts`, `src/optimizers/structure-enhancer.ts`,
`src/optimizers/html-cleaner.ts`, `src/converters/llm-converter.ts`,
`src/index.ts`) in Lean and settles the frozen claims C1–C10.

Conventions:
* JS strings are modelled as `String` (ASCII inputs; `.length` agrees with
  JS `length` on ASCII, list-of-char operations model the JS string ops).
* External collaborators (turndown, cheerio serialization round-trips,
  Readability, llama.cpp, fetch, URL parsing) are oracles: function
  parameters of the model.
* DOM documents are rose trees (`Node`); cheerio snapshot-then-mutate
  passes are translated to structural traversals that are equivalent on
  parser-reachable documents (noted at each definition).
-/

namespace GetMd

/-- JS whitespace characters relevant to `String.prototype.trim`, `\s`
and `[^\S\n]` (ASCII range). -/
def jsWs (c : Char) : Bool :=
  c = ' ' || c = '\t' || c = '\n' || c = '\r' || c = '\x0b' || c = '\x0c'

/-- Left trim on char lists (JS `trimStart`). -/
def trimLeftL (l : List Char) : List Char := l.dropWhile jsWs

/-- Right trim on char lists (JS `trimEnd`). -/
def trimRightL (l : List Char) : List Char := (l.reverse.dropWhile jsWs).reverse

/-- JS `String.prototype.trim` on char lists. -/
def trimL (l : List Char) : List Char := trimRightL (trimLeftL l)

/-- List-level prefix test (JS `startsWith`). -/
def isPrefixL : List Char → List Char → Bool
  | [], _ => true
  | _ :: _, [] => false
  | p :: ps, c :: cs => p = c && isPrefixL ps cs

/-- List-level substring test (JS `String.prototype.includes`). -/
def containsL : List Char → List Char → Bool
  | hay, needle =>
    isPrefixL needle hay ||
      match hay with
      | [] => false
      | _ :: t => containsL t needle

/-- JS `includes` on strings. -/
def strContains (hay needle : String) : Bool := containsL hay.data needle.data

/-- ASCII `toLowerCase` (the repo's inputs relevant to the claims are ASCII). -/
def lowerL (l : List Char) : List Char := l.map Char.toLower

/-- JS `trim` on strings. -/
def jsTrim (s : String) : String := ⟨trimL s.data⟩

/-- List-level suffix test (JS `endsWith`). -/
def isSuffixL (needle l : List Char) : Bool := isPrefixL needle.reverse l.reverse

/-! ## LLM converter (`src/converters/llm-converter.ts`)

`LLMConverter.convert` (lines 122–180).  The llama.cpp completion call is an
oracle: `completion` is the outcome of `completion.generateCompletion`
(`.ok` the generated text, `.error` a thrown error's message).  `loaded`
models `this.model !== null && this.context !== null`.  The periodic
`conversion-progress` notifications (every 100 tokens) are elided from the
event trace; the claims do not mention them. -/

inductive LLMEv where
  | modelCheckChecking
  | modelCheckNotFound
  | modelCheckFound (path : Option String)
  | modelLoading
  | modelLoaded
  | conversionStart (inputSize : Nat)
  | conversionComplete (outputSize : Nat)
  | conversionError (msg : String)
  | fallbackStart (reason : String)
  deriving DecidableEq, Repr

/-- `LLMConverter.convert` (llm-converter.ts:122–180): requires a loaded
model, builds the ReaderLM prompt, runs the completion and returns the
result, emitting start/complete/error events.  The raw completion `result`
is returned as-is (line 169). -/
def LLMConverter.convert (loaded : Bool) (completion : Except String String)
    (html : String) : Except String String × List LLMEv :=
  if loaded then
    match completion with
    | .ok result =>
        (.ok result, [.conversionStart html.length, .conversionComplete result.length])
    | .error e =>
        (.error e, [.conversionStart html.length, .conversionError e])
  else
    (.error "Model not loaded. Call loadModel() first.", [])

/-- Modelled from the spec (§4.6): the spec's described post-processing of
the raw completion — "strips a surrounding fenced-code wrapper from the raw
completion if present … and returns the cleaned text".  No such code exists
in `LLMConverter.convert`; this definition follows the spec's words so the
claim can be compared against the source's behaviour. -/
def stripFenceWrapper (s : String) : String :=
  let d := (jsTrim s).data
  if 6 ≤ d.length && isPrefixL "```".data d && isSuffixL "```".data d then
    ⟨trimL ((d.drop 3).take (d.length - 6))⟩
  else s

/-- A completion wrapped in a surrounding fenced-code block. -/
def fencedCompletion : String := "```\n# Hi\n```"

/-! ## Metadata record merge (`src/parsers/markdown-parser.ts:175–177`, C6)

JS objects with optional fields are modelled as association lists
`List (String × Option String)`: membership = key present, `none` =
present-but-`undefined`.  Object spread `{...a, ...b}` copies every own
enumerable key of `b`, including keys whose value is `undefined`. -/

/-- Key lookup in a JS-object model: `none` = key absent,
`some none` = key present with value `undefined`. -/
def jsLookup : List (String × Option String) → String → Option (Option String)
  | [], _ => none
  | (k, v) :: t, key => if k = key then some v else jsLookup t key

/-- JS object spread `{...a, ...b}`: keys of `a` keep their positions (values
overridden by `b` whenever `b` has the key, even with value `undefined`);
keys only in `b` are appended in `b`'s order. -/
def spreadMerge (a b : List (String × Option String)) : List (String × Option String) :=
  a.map (fun kv => match jsLookup b kv.1 with | some v => (kv.1, v) | none => kv) ++
    b.filter (fun kv => (jsLookup a kv.1).isNone)

/-- Reading a field of a JS object: `undefined` both when the key is absent
and when it is present with value `undefined`. -/
def readField (m : List (String × Option String)) (k : String) : Option String :=
  (jsLookup m k).bind id

/-- A successful Readability article after the `|| undefined` coercions of
markdown-parser.ts:451–456 (`none` = the field was falsy). -/
structure Article where
  title : Option String
  author : Option String
  excerpt : Option String
  siteName : Option String

/-- The extractor-supplied metadata object built at markdown-parser.ts:450–457:
all four keys are always present, values possibly `undefined`. -/
def extractedMeta (art : Article) : List (String × Option String) :=
  [("title", art.title), ("author", art.author),
   ("excerpt", art.excerpt), ("siteName", art.siteName)]

/-- The metadata object returned by `extractMetadata`
(metadata-extractor.ts:542–558): all seven keys present, each value the
result of the corresponding scraper function (oracles here). -/
def scrapedMeta (t a e sn pt lg cu : Option String) : List (String × Option String) :=
  [("title", t), ("author", a), ("excerpt", e), ("siteName", sn),
   ("publishedTime", pt), ("language", lg), ("canonicalUrl", cu)]

/-- markdown-parser.ts:177 on the successful-extraction path:
`metadata = { ...additionalMeta, ...metadata }`. -/
def mergedMeta (additionalMeta extracted : List (String × Option String)) :
    List (String × Option String) :=
  spreadMerge additionalMeta extracted

/-! ## `postProcess` (markdown-parser.ts:756–810)

The markdown string is modelled as its character list.  Each regex
`replace` is translated to a left-to-right scanner with JS `/g` semantics:
try a match at the current position, on success emit the replacement and
continue after the match, otherwise emit one character and advance.
`stepB` and `stepE` use a fuel counter equal to the input length (every
scanner step consumes at least one input character, so the fuel never runs
out); the remaining steps are structural. -/

/-! `markdown.replace(/\n{3,}/g, "\n\n")` — collapse runs of three or more
newlines to exactly two (`stepA` = no newline seen, `stepANl1` = one
emitted, `stepASkip` = two emitted, dropping the rest of the run). -/
mutual
def stepA : List Char → List Char
  | [] => []
  | '\n' :: t => '\n' :: stepANl1 t
  | c :: t => c :: stepA t

def stepANl1 : List Char → List Char
  | [] => []
  | '\n' :: t => '\n' :: stepASkip t
  | c :: t => c :: stepA t

def stepASkip : List Char → List Char
  | [] => []
  | '\n' :: t => stepASkip t
  | c :: t => c :: stepA t
end

/-- The list-marker alternation `(-|\d+\.)` of the list-formatting regex:
`-`, or a maximal digit run followed by `.` (a shorter digit run is always
followed by a digit, so regex backtracking cannot produce another match). -/
def parseMarker : List Char → Option (List Char × List Char)
  | '-' :: t => some (['-'], t)
  | l =>
    let ds := l.takeWhile Char.isDigit
    if ds.isEmpty then none
    else
      match l.drop ds.length with
      | '.' :: r => some (ds ++ ['.'], r)
      | _ => none

/-- Backtracking over the greedy `\s+` of the list-formatting regex: try
taking `k` whitespace characters (largest first); then the lazy `(.+?)`
must be the maximal newline-free run (its only possible stop is at the
following newline), followed by `\n\n` and a second list marker.  Returns
`(replacement, rest-after-match)` where the replacement realises
`"$1 $2\n$4"`. -/
def tryBWs (mk full : List Char) : Nat → Option (List Char × List Char)
  | 0 => none
  | k + 1 =>
    let rest := full.drop (k + 1)
    let body := rest.takeWhile (· ≠ '\n')
    let attempt : Option (List Char × List Char) :=
      if body.isEmpty then none
      else
        match rest.drop body.length with
        | '\n' :: '\n' :: r2 =>
          match parseMarker r2 with
          | some (mk2, r3) => some (mk ++ ' ' :: (body ++ '\n' :: mk2), r3)
          | none => none
        | _ => none
    match attempt with
    | some res => some res
    | none => tryBWs mk full k

/-- Try `^(-|\d+\.)\s+(.+?)(\n\n)(-|\d+\.)` at a line start. -/
def tryB (l : List Char) : Option (List Char × List Char) :=
  match parseMarker l with
  | none => none
  | some (mk, rest1) =>
    let m := (rest1.takeWhile jsWs).length
    if m = 0 then none else tryBWs mk rest1 m

/-- Scanner for `replace(/^(-|\d+\.)\s+(.+?)(\n\n)(-|\d+\.)/gm, "$1 $2\n$4")`;
`atStart` tracks the multiline `^` anchor (position 0 or just after a
newline). -/
def scanB : Nat → Bool → List Char → List Char
  | 0, _, l => l
  | _ + 1, _, [] => []
  | fuel + 1, atStart, c :: t =>
    if atStart then
      match tryB (c :: t) with
      | some (rep, rest) => rep ++ scanB fuel false rest
      | none => c :: scanB fuel (c = '\n') t
    else c :: scanB fuel (c = '\n') t

def stepB (l : List Char) : List Char := scanB l.length true l

/-- The pattern `([^\n])\n```` `` matches at a position whose character is
`c` and whose tail is `t`. -/
def cMatch (c : Char) (t : List Char) : Bool :=
  c ≠ '\n' && isPrefixL ['\n', '`', '`', '`'] t

/-- `markdown.replace(/([^\n])\n```/g, "$1\n\n```")`; after a match the scan
resumes past the backticks (`t.drop 4`).  The fuel (initially the input
length) dominates the number of scanner steps, each of which consumes at
least one input character. -/
def scanC : Nat → List Char → List Char
  | 0, l => l
  | _ + 1, [] => []
  | fuel + 1, c :: t =>
    if cMatch c t then c :: '\n' :: '\n' :: '`' :: '`' :: '`' :: scanC fuel (t.drop 4)
    else c :: scanC fuel t

def stepC (l : List Char) : List Char := scanC l.length l

/-- The pattern ```` ```\n([^`\n]) ```` matches at a position with character
`c` and tail `t` (the captured character is `t.drop 3`'s head). -/
def dMatch (c : Char) (t : List Char) : Bool :=
  c = '`' && isPrefixL ['`', '`', '\n'] t &&
    (match t.drop 3 with
     | d :: _ => d ≠ '`' && d ≠ '\n'
     | [] => false)

/-- `markdown.replace(/```\n([^`\n])/g, "```\n\n$1")`.  After a real match
the JS scan resumes after the captured character `d`; resuming at `d`
instead is equivalent because no match can start at `d` (it would need
`d = '`'`, excluded by the match condition). -/
def scanD : Nat → List Char → List Char
  | 0, l => l
  | _ + 1, [] => []
  | fuel + 1, c :: t =>
    if dMatch c t then '`' :: '`' :: '`' :: '\n' :: '\n' :: scanD fuel (t.drop 3)
    else c :: scanD fuel t

def stepD (l : List Char) : List Char := scanD l.length l

/-- The pattern `([^\n-])\n(#{1,6}\s)`: `#{1,6}` followed by `\s` matches
exactly when the `#`-run after the newline has length 1–6 and is followed
by a whitespace character (a shorter take leaves a `#` next, so regex
backtracking cannot succeed otherwise). -/
def eMatch (c : Char) (t : List Char) : Bool :=
  c ≠ '\n' && c ≠ '-' &&
    (match t with
     | '\n' :: r =>
       let hs := r.takeWhile (· = '#')
       1 ≤ hs.length && hs.length ≤ 6 &&
         (match r.drop hs.length with
          | w :: _ => jsWs w
          | [] => false)
     | _ => false)

/-- `markdown.replace(/([^\n-])\n(#{1,6}\s)/g, "$1\n\n$2")`; on a match the
replacement re-emits the `#`-run and the whitespace character and the scan
resumes after them. -/
def scanE : Nat → List Char → List Char
  | 0, l => l
  | _ + 1, [] => []
  | fuel + 1, c :: t =>
    if eMatch c t then
      let r := t.drop 1
      let hs := r.takeWhile (· = '#')
      c :: '\n' :: '\n' :: (hs ++ (r.drop hs.length).take 1 ++ scanE fuel (r.drop (hs.length + 1)))
    else c :: scanE fuel t

def stepE (l : List Char) : List Char := scanE l.length l

/-- JS `split("\n")`. -/
def splitNl : List Char → List (List Char)
  | [] => [[]]
  | c :: t =>
    if c = '\n' then [] :: splitNl t
    else
      match splitNl t with
      | l :: ls => (c :: l) :: ls
      | [] => [[c]]

/-- JS `join("\n")`. -/
def joinNl : List (List Char) → List Char
  | [] => []
  | [l] => l
  | l :: ls => l ++ '\n' :: joinNl ls

/-- `lines[i].trim() === "---"`. -/
def lineIsHr (l : List Char) : Bool := trimL l = ['-', '-', '-']

/-- A processed previous/next line triggers blank-line insertion when it is
neither blank nor a heading line (markdown-parser.ts:793 and 797). -/
def hrNeighborSolid (l : List Char) : Bool := !(trimL l).isEmpty && !isPrefixL ['#'] l

/-- The horizontal-rule spacing loop of `postProcess`
(markdown-parser.ts:775–804), translated from the index/splice form:
`acc` holds the already-emitted lines in reverse (so inserted blanks land
between the previous line and the current `---` line), `cnt` is the running
`frontmatterCount`.  The first two `---` lines are skipped; later ones get
blank lines inserted around them when neither first nor last and the
neighbor is neither blank nor a `#`-heading line; splices advance `i` past
the inserted blanks, which the fold mirrors by never reprocessing them. -/
def hrLoop : List (List Char) → Nat → List (List Char) → List (List Char)
  | acc, _, [] => acc.reverse
  | acc, cnt, l :: rest =>
    if lineIsHr l then
      if cnt + 1 ≤ 2 then hrLoop (l :: acc) (cnt + 1) rest
      else if acc.isEmpty || rest.isEmpty then hrLoop (l :: acc) (cnt + 1) rest
      else
        let acc1 := if hrNeighborSolid (acc.headD []) then ([] : List Char) :: acc else acc
        let acc2 := l :: acc1
        let acc3 := if hrNeighborSolid (rest.headD []) then ([] : List Char) :: acc2 else acc2
        hrLoop acc3 (cnt + 1) rest
    else hrLoop (l :: acc) cnt rest
termination_by structural _ _ rem => rem

def stepF (l : List Char) : List Char := joinNl (hrLoop [] 0 (splitNl l))

/-- Whitespace other than newline: the class `[^\S\n]`. -/
def wsNoNl (c : Char) : Bool := jsWs c && c ≠ '\n'

/-- `markdown.replace(/[^\S\n]+$/gm, "")` — strip trailing non-newline
whitespace from every line. -/
def stepG (l : List Char) : List Char :=
  joinNl ((splitNl l).map (fun line => (line.reverse.dropWhile wsNoNl).reverse))

/-- `postProcess` (markdown-parser.ts:756–810): the seven rewrites followed
by `` `${markdown.trim()}\n` ``. -/
def postProcessL (l : List Char) : List Char :=
  trimL (stepG (stepF (stepE (stepD (stepC (stepB (stepA l))))))) ++ ['\n']

def postProcess (s : String) : String := ⟨postProcessL s.data⟩

/-! ## Frontmatter and options (markdown-parser.ts:698–716, 812–847) -/

/-- A defined JS metadata value: a string or a number (`wordCount`,
`readingTime`). -/
inductive MetaVal where
  | s (v : String)
  | n (v : Nat)
  deriving DecidableEq, Repr

/-- `value.replace(/"/g, '\\"')`. -/
def yamlEscape (v : String) : String :=
  ⟨v.data.flatMap fun c => if c = '"' then ['\\', '"'] else [c]⟩

/-- The per-entry YAML value of `addFrontmatter`: strings containing `:` or
line breaks are quoted with inner quotes escaped; numbers are stringified. -/
def yamlValue : MetaVal → String
  | .n v => toString v
  | .s v =>
    if v.data.any (fun c => c = ':' || c = '\n' || c = '\r') then
      "\"" ++ yamlEscape v ++ "\""
    else v

/-- `addFrontmatter` (markdown-parser.ts:698–716): `yaml.join("\n")` of
`["---", ...entries, "---"]` followed by a blank line and the markdown;
entries skip `undefined`/`null` values. -/
def addFrontmatter (markdown : String) (metadata : List (String × Option MetaVal)) : String :=
  let entries := metadata.filterMap fun kv => kv.2.map fun v => kv.1 ++ ": " ++ yamlValue v
  "---\n" ++ String.intercalate "\n" (entries ++ ["---"]) ++ "\n\n" ++ markdown

/-- Caller-supplied `MarkdownOptions` (src/types.ts): every field optional.
`customRules`/`preserveElements`/callbacks and the float `llmTemperature`
are not modelled (custom rules are absorbed into the turndown oracle; the
others are never read by the modelled code paths). -/
structure OptionsIn where
  extractContent : Option Bool := none
  includeMeta : Option Bool := none
  maxLength : Option Nat := none
  baseUrl : Option String := none
  includeImages : Option Bool := none
  includeLinks : Option Bool := none
  includeTables : Option Bool := none
  aggressiveCleanup : Option Bool := none
  isUrl : Option Bool := none
  timeout : Option Nat := none
  followRedirects : Option Bool := none
  maxRedirects : Option Nat := none
  useLLM : Option Bool := none
  llmModelPath : Option String := none
  llmMaxTokens : Option Nat := none
  llmFallback : Option Bool := none
  deriving DecidableEq, Repr

/-- The fully-defaulted options record. -/
structure Opts where
  extractContent : Bool
  includeMeta : Bool
  maxLength : Nat
  baseUrl : Option String
  includeImages : Bool
  includeLinks : Bool
  includeTables : Bool
  aggressiveCleanup : Bool
  isUrl : Option Bool
  timeout : Nat
  followRedirects : Bool
  maxRedirects : Nat
  useLLM : Bool
  llmModelPath : Option String
  llmMaxTokens : Nat
  llmFallback : Bool
  deriving DecidableEq, Repr

/-- `normalizeOptions` (markdown-parser.ts:812–847): `??`-defaults. -/
def normalizeOptions (o : OptionsIn) : Opts where
  extractContent := o.extractContent.getD true
  includeMeta := o.includeMeta.getD true
  maxLength := o.maxLength.getD 1000000
  baseUrl := o.baseUrl
  includeImages := o.includeImages.getD true
  includeLinks := o.includeLinks.getD true
  includeTables := o.includeTables.getD true
  aggressiveCleanup := o.aggressiveCleanup.getD true
  isUrl := o.isUrl
  timeout := o.timeout.getD 15000
  followRedirects := o.followRedirects.getD true
  maxRedirects := o.maxRedirects.getD 5
  useLLM := o.useLLM.getD false
  llmModelPath := o.llmModelPath
  llmMaxTokens := o.llmMaxTokens.getD 512000
  llmFallback := o.llmFallback.getD true

/-! ## Conversion orchestration (markdown-parser.ts:51–139, 359–405;
src/index.ts:44–55, 121–152)

External collaborators are oracle functions.  `turndown` is the Turndown
library (with the custom rule set and any caller rules installed);
`formatForLLM` and `wordStats` are the repo's `llm-formatter.ts` and
`calculateMarkdownStats` — they are kept as parameters because no claim
depends on their internals, and every theorem below quantifies over them.
`preprocess`/`preprocessSync` stand for `preprocessHtml`/`preprocessHtmlSync`
(extraction, metadata scrape, cleaning, enhancement, code-block
normalization, filtering); the cleaning and enhancement stages themselves
are embedded concretely at the DOM level later in this file. -/

/-- Result of preprocessing: the cleaned content HTML, the merged metadata
and the Readability success flag. -/
structure PreOut where
  contentHtml : String
  metadata : List (String × Option MetaVal)
  readabilitySuccess : Bool

structure Ext where
  turndown : String → String
  formatForLLM : String → String
  wordStats : String → Nat × Nat
  imageCount : String → Nat
  linkCount : String → Nat
  preprocess : String → Opts → PreOut
  preprocessSync : String → Opts → String × List (String × Option MetaVal)

/-- `convertWithTurndown` (markdown-parser.ts:238–254): turndown then
`formatForLLM` (custom rules are installed on the turndown instance, hence
absorbed by the oracle). -/
def convertWithTurndown (ext : Ext) (contentHtml : String) : String :=
  ext.formatForLLM (ext.turndown contentHtml)

structure MarkdownStats where
  inputLength : Nat
  outputLength : Nat
  processingTime : Nat
  readabilitySuccess : Bool
  imageCount : Nat
  linkCount : Nat
  deriving DecidableEq, Repr

structure MarkdownResultM where
  markdown : String
  metadata : List (String × Option MetaVal)
  stats : MarkdownStats
  deriving DecidableEq, Repr

/-- Lines 369–376 of `finalizeConversion`: set `wordCount`/`readingTime` on
the metadata, then prepend frontmatter when `includeMeta` is set and the
metadata object has at least one key. -/
def withMeta (ext : Ext) (markdown : String) (metadata : List (String × Option MetaVal))
    (opts : Opts) : String × List (String × Option MetaVal) :=
  let wc := (ext.wordStats markdown).1
  let rt := (ext.wordStats markdown).2
  let metadata2 := metadata ++ [("wordCount", some (.n wc)), ("readingTime", some (.n rt))]
  (if opts.includeMeta && metadata2.length > 0 then addFrontmatter markdown metadata2
   else markdown, metadata2)

/-- The post-processed markdown before the length check — "the markdown
before truncation". -/
def untruncated (ext : Ext) (markdown : String) (metadata : List (String × Option MetaVal))
    (opts : Opts) : String :=
  postProcess (withMeta ext markdown metadata opts).1

/-- The truncation marker appended at markdown-parser.ts:383. -/
def truncMarker : String := "\n\n[Content truncated]"

/-- `finalizeConversion` (markdown-parser.ts:359–405).  `processingTime` is
wall-clock time, modelled as 0. -/
def finalizeConversion (ext : Ext) (originalHtml contentHtml markdown : String)
    (metadata : List (String × Option MetaVal)) (opts : Opts)
    (readabilitySuccess : Bool) : MarkdownResultM :=
  let md2 := untruncated ext markdown metadata opts
  let md3 :=
    if opts.maxLength ≠ 0 && md2.length > opts.maxLength then
      ⟨md2.data.take opts.maxLength⟩ ++ truncMarker
    else md2
  { markdown := md3
    metadata := (withMeta ext markdown metadata opts).2
    stats :=
      { inputLength := originalHtml.length
        outputLength := md3.length
        processingTime := 0
        readabilitySuccess := readabilitySuccess
        imageCount := if opts.includeImages then ext.imageCount contentHtml else 0
        linkCount := if opts.includeLinks then ext.linkCount contentHtml else 0 } }

/-- Oracle outcomes for the model path: `checkLLMModel` (availability =
file exists with non-zero size), `loadModel` and the completion call. -/
structure LLMOracle where
  available : Bool
  path : Option String
  loadError : Option String
  completion : Except String String

/-- `convertWithLLM` (markdown-parser.ts:259–304): check availability, load,
convert; the model is always unloaded in `finally` (no observable event).
Load failures arrive wrapped as "Failed to load LLM model: …"
(llm-converter.ts:83–86). -/
def convertWithLLM (o : LLMOracle) (contentHtml : String) :
    Except String String × List LLMEv :=
  if o.available then
    match o.loadError with
    | some msg =>
      (.error ("Failed to load LLM model: " ++ msg),
       [.modelCheckChecking, .modelCheckFound o.path, .modelLoading])
    | none =>
      match LLMConverter.convert true o.completion contentHtml with
      | (r, evs3) =>
        (r, [.modelCheckChecking, .modelCheckFound o.path, .modelLoading, .modelLoaded] ++ evs3)
  else
    (.error "LLM model not found. Download it first using downloadLLMModel() or the CLI command: getmd --download-model",
     [.modelCheckChecking, .modelCheckNotFound])

/-- `MarkdownParser.convertAsync` (markdown-parser.ts:51–96): preprocess,
choose the renderer, fall back to Turndown on model failure when
`llmFallback !== false` (emitting `fallback-start`), otherwise rethrow. -/
def convertAsync (ext : Ext) (llm : LLMOracle) (html : String) (optsIn : OptionsIn) :
    Except String (MarkdownResultM × List LLMEv) :=
  let opts := normalizeOptions optsIn
  let pre := ext.preprocess html opts
  if opts.useLLM then
    match convertWithLLM llm pre.contentHtml with
    | (.ok md, evs) =>
      .ok (finalizeConversion ext html pre.contentHtml md pre.metadata opts
             pre.readabilitySuccess, evs)
    | (.error e, evs) =>
      if opts.llmFallback = true then
        .ok (finalizeConversion ext html pre.contentHtml (convertWithTurndown ext pre.contentHtml)
               pre.metadata opts pre.readabilitySuccess, evs ++ [.fallbackStart e])
      else .error e
  else
    .ok (finalizeConversion ext html pre.contentHtml (convertWithTurndown ext pre.contentHtml)
           pre.metadata opts pre.readabilitySuccess, [])

/-- `MarkdownParser.convert` (markdown-parser.ts:103–139), the sync path:
forces `extractContent := false` (lines 114–120), preprocesses without
extraction (`preprocessHtmlSync` returns `readabilitySuccess = false`,
line 211) and renders with Turndown. -/
def convertSync (ext : Ext) (html : String) (optsIn : OptionsIn) : MarkdownResultM :=
  let opts := normalizeOptions optsIn
  let opts2 := { opts with extractContent := false }
  let pre := ext.preprocessSync html opts2
  finalizeConversion ext html pre.1 (convertWithTurndown ext pre.1) pre.2 opts2 false

/-- URL collaborators of `src/index.ts`: `isValidUrl` (url-fetcher.ts:57–64,
WHATWG `new URL` parse + http/https protocol check — the platform URL
parser is the oracle) and a successful `fetchUrl`. -/
structure UrlExt where
  isValidUrl : String → Bool
  fetchUrl : String → String

/-- `options?.baseUrl || url` (JS `||`: empty string is falsy). -/
def baseUrlOr (b : Option String) (url : String) : Option String :=
  match b with
  | some s => if s = "" then some url else some s
  | none => some url

/-- The markdown-option subset forwarded by `fetchAndConvert`
(src/index.ts:134–147); fetch/LLM options are not forwarded. -/
def buildMarkdownOptions (o : OptionsIn) (url : String) : OptionsIn where
  extractContent := o.extractContent
  includeMeta := o.includeMeta
  maxLength := o.maxLength
  baseUrl := baseUrlOr o.baseUrl url
  includeImages := o.includeImages
  includeLinks := o.includeLinks
  includeTables := o.includeTables
  aggressiveCleanup := o.aggressiveCleanup

/-- `fetchAndConvert` (src/index.ts:121–152): fetch, then sync-convert the
fetched HTML. -/
def fetchAndConvert (ext : Ext) (uext : UrlExt) (url : String) (o : OptionsIn) :
    MarkdownResultM :=
  convertSync ext (uext.fetchUrl url) (buildMarkdownOptions o url)

/-- `convertToMarkdown` (src/index.ts:44–55): URL inputs are fetched and
converted; everything else is converted directly with the sync parser. -/
def convertToMarkdown (ext : Ext) (uext : UrlExt) (html : String) (o : OptionsIn) :
    MarkdownResultM :=
  if uext.isValidUrl html then fetchAndConvert ext uext html o
  else convertSync ext html o

/-! ## Concrete fixtures used by witnesses and counterexamples -/

/-- JS `startsWith` on strings. -/
def strPrefix (p s : String) : Bool := isPrefixL p.data s.data

/-- JS `endsWith` on strings. -/
def strSuffix (p s : String) : Bool := isSuffixL p.data s.data

/-- A concrete oracle bundle (identity renderer, empty metadata). -/
def extUnit : Ext where
  turndown := fun s => s
  formatForLLM := fun s => s
  wordStats := fun _ => (0, 0)
  imageCount := fun _ => 0
  linkCount := fun _ => 0
  preprocess := fun h _ => ⟨h, [], false⟩
  preprocessSync := fun h _ => (h, [])

/-- An oracle where the model file is absent. -/
def llmAbsent : LLMOracle where
  available := false
  path := none
  loadError := none
  completion := .ok ""

def c1Opts : OptionsIn := { useLLM := some true }

def c2OptsZero : OptionsIn := { maxLength := some 0, includeMeta := some false }

def c2OptsFive : OptionsIn := { maxLength := some 5, includeMeta := some false }

def c5OptsTrunc : OptionsIn := { maxLength := some 1 }

/-- A URL oracle recognising a single URL. -/
def uextEx : UrlExt where
  isValidUrl := fun s => s = "https://example.com"
  fetchUrl := fun _ => "<h1>Hello</h1>"

/-- The three-dash frontmatter fence, as a character list. -/
def dash3 : List Char := ['-', '-', '-']

/-! ## DOM tree model

The cheerio passes of `structure-enhancer.ts`, `markdown-parser.ts`
(`normalizeCodeBlocks`) and `html-cleaner.ts` operate on a parsed DOM.  A
document is a list of nodes; a node is a text node or an element with a
(lower-cased) tag name, an attribute list and child nodes.  Tag and
attribute names are stored as the parser produces them (lower-case). -/

inductive Node where
  | text : List Char → Node
  | elem : String → List (String × String) → List Node → Node

/-- First-wins attribute lookup (the parser keeps the first occurrence of a
duplicated attribute). -/
def attrOf (n : String) : List (String × String) → Option String
  | [] => none
  | (k, v) :: r => if k = n then some v else attrOf n r

/-- Attribute value with the `|| ""` default used throughout the sources. -/
def attrOr (n : String) (a : List (String × String)) : String := (attrOf n a).getD ""

/-- Attribute presence, as tested by a `[attr]` selector. -/
def hasAttr (n : String) (a : List (String × String)) : Bool := (attrOf n a).isSome

def isElemN : Node → Bool
  | .text _ => false
  | .elem _ _ _ => true

/-- Number of element children — what cheerio's `.children().length` counts
(text nodes are ignored). -/
def countElemL : List Node → Nat
  | [] => 0
  | c :: r => (if isElemN c then 1 else 0) + countElemL r

/-- Tag of the first element child (`children.first().prop("tagName")`,
already lower-case in the model). -/
def firstElemTag : List Node → Option String
  | [] => none
  | .text _ :: r => firstElemTag r
  | .elem t _ _ :: _ => some t

/-- Truthiness of `$el.html()` on a child list: the serialized innerHTML is
non-empty iff some child is an element or a non-empty text node. -/
def innerNonempty : List Node → Bool
  | [] => false
  | .text s :: r => !s.isEmpty || innerNonempty r
  | .elem _ _ _ :: _ => true

mutual
/-- Concatenated descendant text (`$el.text()`), node version. -/
def textN : Node → List Char
  | .text s => s
  | .elem _ _ cs => textL cs
/-- Concatenated descendant text, list version. -/
def textL : List Node → List Char
  | [] => []
  | c :: r => textN c ++ textL r
end

/-! ## Noise-phrase removal (`src/unnamed/part_003`, `removeNoiseElements`
lines 134–155)

The phrase pass filters `$("*")` (every element) by the predicate at lines
138–154 and removes the matched set.  The predicate is evaluated on the
snapshot (the original tree), and removal prunes whole subtrees, so the
pass coincides with a top-down structural traversal that tests each element
on its original subtree before recursing. -/

/-- Boilerplate phrase list of lines 148–152. -/
def noisePhrases : List String :=
  ["cookie policy", "accept cookies", "sign up for", "newsletter", "follow us"]

/-- The `text.includes(...) || ...` disjunction of lines 147–153, on the
lower-cased text. -/
def hasNoisePhrase (t : List Char) : Bool :=
  noisePhrases.any fun p => containsL t p.data

/-- Lines 140–153: `text = $el.text().toLowerCase()`,
`textLength = text.trim().length`; elements longer than 200 trimmed
characters are kept, otherwise the phrase list decides. -/
def noiseMatch (t : List Char) : Bool :=
  if 200 < (trimL t).length then false else hasNoisePhrase t

mutual
/-- The phrase-removal pass: the replacement list for one node — empty for
a matched element (dropped with its whole subtree), otherwise the node
with its children filtered in turn. -/
def rmNoiseN : Node → List Node
  | .text s => [.text s]
  | .elem t a cs =>
    if noiseMatch (lowerL (textL cs)) then []
    else [.elem t a (rmNoiseL cs)]
/-- The phrase-removal pass on a node list. -/
def rmNoiseL : List Node → List Node
  | [] => []
  | c :: r => rmNoiseN c ++ rmNoiseL r
end

/-- C7 counterexample fixture: 190 `a`s followed by `newsletter` — exactly
200 characters of text. -/
def c7Text : List Char := List.replicate 190 'a' ++ "newsletter".data

def c7Node : Node := .elem "div" [] [.text c7Text]

/-! ## Structure enhancer (`src/optimizers/structure-enhancer.ts`)

`enhanceStructure` (lines 11–24) runs `normalizeHeadings`,
`unwrapRedundantElements` and `convertPseudoHeadings` in that order and
reserializes. -/

/-- Heading level of a tag, as selected by `h1, h2, ..., h6` and computed by
`parseInt(tagName.substring(1))` (lines 31–36). -/
def hLevel (t : String) : Option Nat :=
  if t = "h1" then some 1
  else if t = "h2" then some 2
  else if t = "h3" then some 3
  else if t = "h4" then some 4
  else if t = "h5" then some 5
  else if t = "h6" then some 6
  else none

/-- Tag `h${n}` built at line 43. -/
def hTag (n : Nat) : String := "h" ++ n.repr

mutual
/-- The `lastLevel` recurrence of lines 39–52 threaded over a node's
subtree in document order: every heading advances `lastLevel` (to
`lastLevel + 1` on a clamped skip, to its own level otherwise), whether or
not its `replaceWith` fires. -/
def threadN (last : Nat) : Node → Nat
  | .text _ => last
  | .elem t _ cs =>
    match hLevel t with
    | some k => threadL (if last + 1 < k then last + 1 else k) cs
    | none => threadL last cs
def threadL (last : Nat) : List Node → Nat
  | [] => last
  | c :: r => threadL (threadN last c) r
end

mutual
/-- `normalizeHeadings` (lines 26–53).  The pass snapshots all headings in
document order and rewrites each via the `lastLevel` recurrence.  A clamped
heading with truthy innerHTML is replaced by a fresh `h${lastLevel+1}`
whose children are reparsed copies (attributes are dropped); headings that
were nested below it are thereby detached, so their own rewrites are
invisible, but they still advance `lastLevel` (`threadL`).  A clamped
heading with falsy innerHTML, and a non-clamped heading, keep their node,
so their (attached) descendants are processed normally. -/
def normHN (last : Nat) : Node → (Node × Nat)
  | .text s => (.text s, last)
  | .elem t a cs =>
    match hLevel t with
    | some k =>
      if last + 1 < k then
        if innerNonempty cs then
          (.elem (hTag (last + 1)) [] cs, threadL (last + 1) cs)
        else
          let r := normHLL (last + 1) cs
          (.elem t a r.1, r.2)
      else
        let r := normHLL k cs
        (.elem t a r.1, r.2)
    | none =>
      let r := normHLL last cs
      (.elem t a r.1, r.2)
def normHLL (last : Nat) : List Node → (List Node × Nat)
  | [] => ([], last)
  | c :: rest =>
    let p := normHN last c
    let q := normHLL p.2 rest
    (p.1 :: q.1, q.2)
end

mutual
/-- The `div > div:only-child, span > span:only-child` unwrap of lines
57–61, as a top-down traversal: a matched inner element with truthy
innerHTML is replaced by its children (reparsed copies, hence inserted
verbatim — nested matches inside them were detached at replacement time);
everything else recurses.  `pt` is the parent's tag and `ec` the number of
element children of the parent (the `:only-child` test). -/
def unwrapAN : String → Nat → Node → List Node
  | _, _, .text s => [.text s]
  | pt, ec, .elem ct ca ccs =>
    if ((pt = "div" && ct = "div") || (pt = "span" && ct = "span")) && ec == 1 &&
        innerNonempty ccs then
      ccs
    else [.elem ct ca (unwrapAL ct (countElemL ccs) ccs)]
/-- The same unwrap over a child list of the `pt`-tagged parent. -/
def unwrapAL : String → Nat → List Node → List Node
  | _, _, [] => []
  | pt, ec, c :: r => unwrapAN pt ec c ++ unwrapAL pt ec r
end

/-- The block tag list of line 72. -/
def blockTags : List String := ["div", "blockquote", "pre", "ul", "ol", "table"]

/-- Lines 68–76: a `p` whose single element child is a block element, with
truthy innerHTML. -/
def bCond (cs : List Node) : Bool :=
  countElemL cs == 1 &&
    (match firstElemTag cs with
     | some tg => blockTags.contains tg
     | none => false) &&
    innerNonempty cs

mutual
/-- The paragraph unwrap of lines 64–78, top-down: a matched `p` is
replaced by all its child nodes (verbatim copies); everything else
recurses. -/
def unwrapBN : Node → List Node
  | .text s => [.text s]
  | .elem ct ca ccs =>
    if ct = "p" && bCond ccs then ccs
    else [.elem ct ca (unwrapBL ccs)]
/-- The paragraph unwrap over a node list. -/
def unwrapBL : List Node → List Node
  | [] => []
  | c :: r => unwrapBN c ++ unwrapBL r
end

/-- The heading-likeness test of lines 91–101 (trimmed text length in
(0, 100); class contains `title`/`heading` case-insensitively, or style
contains a bold font-weight). -/
def pseudoCond (a : List (String × String)) (cs : List Node) : Bool :=
  let text := trimL (textL cs)
  decide (0 < text.length) && decide (text.length < 100) &&
    (containsL (lowerL (attrOr "class" a).data) "title".data ||
     containsL (lowerL (attrOr "class" a).data) "heading".data ||
     containsL (attrOr "style" a).data "font-weight: bold".data ||
     containsL (attrOr "style" a).data "font-weight:bold".data)

mutual
/-- `convertPseudoHeadings` (lines 81–107): a `div`/`span` with no element
children whose text looks like a heading becomes `<h3>` with the trimmed
text (candidates never nest, so the snapshot pass is this structural
one). -/
def pseudoN : Node → Node
  | .text s => .text s
  | .elem t a cs =>
    if (t = "div" || t = "span") && countElemL cs == 0 && pseudoCond a cs then
      .elem "h3" [] [.text (trimL (textL cs))]
    else .elem t a (pseudoL cs)
/-- The pseudo-heading pass over a node list. -/
def pseudoL : List Node → List Node
  | [] => []
  | c :: r => pseudoN c :: pseudoL r
end

/-- The document root has no tag, so top-level elements are never matched
as inner `div > div` children. -/
def unwrapADoc (doc : List Node) : List Node := unwrapAL "" (countElemL doc) doc

/-- `enhanceStructure` (lines 11–24) on a parsed document. -/
def enhanceStructureL (doc : List Node) : List Node :=
  pseudoL (unwrapBL (unwrapADoc (normHLL 0 doc).1))

mutual
/-- Document-order heading levels of a subtree. -/
def hlN : Node → List Nat
  | .text _ => []
  | .elem t _ cs =>
    (match hLevel t with
     | some k => [k]
     | none => []) ++ hlL cs
/-- Document-order heading levels of a node list. -/
def hlL : List Node → List Nat
  | [] => []
  | c :: r => hlN c ++ hlL r
end

/-- The monotonicity walk of claim C3: each heading level is at most the
previous one plus one, starting from `last`. -/
def chainFrom (last : Nat) : List Nat → Bool
  | [] => true
  | l :: ls => decide (l ≤ last + 1) && chainFrom l ls

/-- The `lastLevel` recurrence of lines 39–52 as a pure fold over heading
levels: the resolved output levels. -/
def resolve (last : Nat) : List Nat → List Nat
  | [] => []
  | k :: ks =>
    (if last + 1 < k then last + 1 else k) :: resolve (if last + 1 < k then last + 1 else k) ks

/-- Final `lastLevel` after resolving a level list. -/
def resolveLast (last : Nat) : List Nat → Nat
  | [] => last
  | k :: ks => resolveLast (if last + 1 < k then last + 1 else k) ks

mutual
/-- No heading element anywhere in the subtree. -/
def noHeadN : Node → Bool
  | .text _ => true
  | .elem t _ cs => (hLevel t).isNone && noHeadL cs
def noHeadL : List Node → Bool
  | [] => true
  | c :: r => noHeadN c && noHeadL r
end

mutual
/-- No heading is nested inside another heading (what the HTML parser
guarantees for real documents). -/
def noNestedN : Node → Bool
  | .text _ => true
  | .elem t _ cs =>
    match hLevel t with
    | some _ => noHeadL cs
    | none => noNestedL cs
def noNestedL : List Node → Bool
  | [] => true
  | c :: r => noNestedN c && noNestedL r
end

mutual
/-- Every heading has truthy innerHTML (line 45's guard always fires). -/
def noEmptyHeadN : Node → Bool
  | .text _ => true
  | .elem t _ cs =>
    (match hLevel t with
     | some _ => innerNonempty cs
     | none => true) && noEmptyHeadL cs
def noEmptyHeadL : List Node → Bool
  | [] => true
  | c :: r => noEmptyHeadN c && noEmptyHeadL r
end

/-- C3/C4 counterexample fixture: a lone pseudo-heading. -/
def c3Doc : List Node := [.elem "div" [("class", "title")] [.text "T".data]]

/-- C3 witness fixture: a single skipping heading. -/
def c3WDoc : List Node := [.elem "h3" [] [.text "A".data]]

/-! ## Code-block normalizer (`src/parsers/markdown-parser.ts`,
`normalizeCodeBlocks`, lines 466–527)

Step 1 runs one snapshot pass per data attribute (lines 479–498): every
`div[attr]`/`figure[attr]` writes its attribute value into its first `pre`
descendant (`pre.empty().append($code)`), provided a `pre` descendant
exists and the value is truthy.  Containers are processed in document
order, and a write replaces the `pre`'s children, detaching anything that
was inside it.  One such pass is a top-down traversal with a single
pending value: entering a qualifying container arms (or re-arms, for a
nested container — it runs later and its write wins) the pending value,
and the first `pre` reached consumes it.  The pending value cannot outlive
the container's subtree because a qualifying container has a `pre`
descendant, which consumes it. -/

mutual
/-- A `pre` descendant exists (`$container.find("pre").length > 0`), node
version (the node itself counts when it is a `pre`, for use on children
lists only). -/
def hasPreN : Node → Bool
  | .text _ => false
  | .elem t _ cs => t = "pre" || hasPreL cs
def hasPreL : List Node → Bool
  | [] => false
  | c :: r => hasPreN c || hasPreL r
end

mutual
/-- A `code` descendant exists (`$pre.find("code").length > 0`). -/
def hasCodeN : Node → Bool
  | .text _ => false
  | .elem t _ cs => t = "code" || hasCodeL cs
def hasCodeL : List Node → Bool
  | [] => false
  | c :: r => hasCodeN c || hasCodeL r
end

/-- The `<code>` element built at lines 490–491: `$code.text(cleanCode)`
sets a single text child. -/
def codeEl (v : String) : Node := .elem "code" [] [.text v.data]

/-- Lines 480–488: the container qualifies when it is a `div`/`figure`
carrying the attribute, the value is truthy, and a `pre` descendant
exists. -/
def contCond (attr : String) (t : String) (a : List (String × String))
    (cs : List Node) : Bool :=
  (t = "div" || t = "figure") && hasAttr attr a && !(attrOr attr a).isEmpty && hasPreL cs

mutual
/-- One data-attribute pass of step 1 (lines 480–497), with the pending
write threaded in document order. -/
def passN (attr : String) : Option String → Node → (Node × Option String)
  | pend, .text s => (.text s, pend)
  | pend, .elem t a cs =>
    let pend' := if contCond attr t a cs then some (attrOr attr a) else pend
    if t = "pre" then
      match pend' with
      | some v => (.elem t a [codeEl v], none)
      | none =>
        let q := passL attr none cs
        (.elem t a q.1, q.2)
    else
      let q := passL attr pend' cs
      (.elem t a q.1, q.2)
def passL (attr : String) : Option String → List Node → (List Node × Option String)
  | pend, [] => ([], pend)
  | pend, c :: r =>
    let p := passN attr pend c
    let q := passL attr p.2 r
    (p.1 :: q.1, q.2)
end

/-- The attribute list of lines 472–477, in pass order. -/
def codeDataAttributes : List String :=
  ["data-snippet-clipboard-copy-content", "data-code-content",
   "data-clipboard-text", "data-source"]

/-- Step 1: the four passes run sequentially (`forEach` at line 479). -/
def step1L (doc : List Node) : List Node :=
  codeDataAttributes.foldl (fun d attr => (passL attr none d).1) doc

mutual
/-- Step 2 (lines 502–524): a `pre` with no `code` descendant and
non-blank text gets its content wrapped in a `code` element (detaching the
old children); skipped `pre`s and other elements recurse. -/
def step2N : Node → Node
  | .text s => .text s
  | .elem t a cs =>
    if t = "pre" then
      if hasCodeL cs then .elem t a (step2L cs)
      else if (trimL (textL cs)).isEmpty then .elem t a (step2L cs)
      else .elem t a [codeEl ⟨textL cs⟩]
    else .elem t a (step2L cs)
def step2L : List Node → List Node
  | [] => []
  | c :: r => step2N c :: step2L r
end

/-- `normalizeCodeBlocks` on a parsed document. -/
def normalizeCodeBlocksL (doc : List Node) : List Node := step2L (step1L doc)

/-! ### Fused form of step 1

For the idempotence proof the four sequential passes are fused into one
traversal carrying a slot list (one pending value per attribute, in pass
order; the last armed slot wins, because later passes overwrite earlier
writes on the same `pre`).  `fusionL` below proves the fused traversal
equal to the sequential composition. -/

/-- Arm every slot whose attribute qualifies at this element. -/
def updSlots (t : String) (a : List (String × String)) (cs : List Node) :
    List (String × Option String) → List (String × Option String)
  | [] => []
  | (at_, o) :: r =>
    (at_, if contCond at_ t a cs then some (attrOr at_ a) else o) :: updSlots t a cs r

/-- The winning pending value: the last armed slot (the latest pass writes
last). -/
def lastSome : List (String × Option String) → Option String
  | [] => none
  | (_, o) :: r =>
    match lastSome r with
    | some v => some v
    | none => o

/-- Disarm every slot (a consumed write). -/
def clearSlots : List (String × Option String) → List (String × Option String)
  | [] => []
  | (at_, _) :: r => (at_, none) :: clearSlots r

/-- All slots disarmed. -/
def slotsNone : List (String × Option String) → Bool
  | [] => true
  | (_, o) :: r => o.isNone && slotsNone r

mutual
/-- The fused step-1 traversal. -/
def wN : List (String × Option String) → Node → (Node × List (String × Option String))
  | sl, .text s => (.text s, sl)
  | sl, .elem t a cs =>
    let sl' := updSlots t a cs sl
    if t = "pre" then
      match lastSome sl' with
      | some v => (.elem t a [codeEl v], clearSlots sl')
      | none =>
        let q := wL sl' cs
        (.elem t a q.1, q.2)
    else
      let q := wL sl' cs
      (.elem t a q.1, q.2)
def wL : List (String × Option String) → List Node → (List Node × List (String × Option String))
  | sl, [] => ([], sl)
  | sl, c :: r =>
    let p := wN sl c
    let q := wL p.2 r
    (p.1 :: q.1, q.2)
end

/-- The initial slot list of the fused step 1: one disarmed slot per data
attribute, in pass order. -/
def slots4 : List (String × Option String) :=
  [("data-snippet-clipboard-copy-content", none), ("data-code-content", none),
   ("data-clipboard-text", none), ("data-source", none)]

end GetMd

namespace GetMd

/-- **C8** (corrected): on a loaded model, `LLMConverter.convert` returns the
raw completion unchanged; no fenced-code wrapper is stripped anywhere in
`convert` (llm-converter.ts:122–180 returns `result` as-is). -/
theorem C8_convert_returns_raw_completion (html r : String) :
    (LLMConverter.convert true (.ok r) html).1 = .ok r := by
  rfl

/-- **C8 witness**: not required (no hypotheses), but the amended theorem is
exercised at a concrete input by the counterexample below. -/
theorem C8_counterexample :
    (LLMConverter.convert true (.ok fencedCompletion) "<p>x</p>").1 = .ok fencedCompletion ∧
      stripFenceWrapper fencedCompletion = "# Hi" ∧
      stripFenceWrapper fencedCompletion ≠ fencedCompletion := by
  refine ⟨rfl, by decide, by decide⟩

/-- **C6** (corrected): in `metadata = { ...additionalMeta, ...metadata }`
(markdown-parser.ts:177) the extractor record always carries the keys
`title`/`author`/`excerpt`/`siteName` — possibly with value `undefined` — so
those four fields always come from the extractor (an `undefined` extractor
field erases a scraped value); only `publishedTime`, `language` and
`canonicalUrl` are filled from the independent meta-tag scrape. -/
theorem C6_merge_fields (art : Article) (t a e sn pt lg cu : Option String) :
    readField (mergedMeta (scrapedMeta t a e sn pt lg cu) (extractedMeta art)) "title"
        = art.title ∧
      readField (mergedMeta (scrapedMeta t a e sn pt lg cu) (extractedMeta art)) "author"
        = art.author ∧
      readField (mergedMeta (scrapedMeta t a e sn pt lg cu) (extractedMeta art)) "excerpt"
        = art.excerpt ∧
      readField (mergedMeta (scrapedMeta t a e sn pt lg cu) (extractedMeta art)) "siteName"
        = art.siteName ∧
      readField (mergedMeta (scrapedMeta t a e sn pt lg cu) (extractedMeta art)) "publishedTime"
        = pt ∧
      readField (mergedMeta (scrapedMeta t a e sn pt lg cu) (extractedMeta art)) "language"
        = lg ∧
      readField (mergedMeta (scrapedMeta t a e sn pt lg cu) (extractedMeta art)) "canonicalUrl"
        = cu := by
  refine ⟨?_, ?_, ?_, ?_, ?_, ?_, ?_⟩ <;>
    simp [mergedMeta, spreadMerge, scrapedMeta, extractedMeta, jsLookup, readField]

/-- **C6 counterexample**: extraction succeeded but the article title was
falsy (`title: undefined` is still a present key); the scrape found a title
`"X"`; after the merge the final `title` is `undefined` — the scraped value
is erased, contradicting "an extractor field that is undefined never erases
a scraped value". -/
theorem C6_counterexample :
    readField (scrapedMeta (some "X") none none none none none none) "title" = some "X" ∧
      readField (extractedMeta ⟨none, none, none, none⟩) "title" = none ∧
      readField
          (mergedMeta (scrapedMeta (some "X") none none none none none none)
            (extractedMeta ⟨none, none, none, none⟩)) "title" = none := by
  refine ⟨by decide, by decide, by decide⟩

/-- Any of the three failure causes — model absent, load failure, inference
error — makes `convertWithLLM` reject. -/
theorem convertWithLLM_error (llm : LLMOracle) (ch : String)
    (hcause : llm.available = false ∨ llm.loadError ≠ none ∨ ∃ msg, llm.completion = .error msg) :
    ∃ e evs, convertWithLLM llm ch = (.error e, evs) := by
  unfold convertWithLLM LLMConverter.convert
  cases hA : llm.available
  · simp only [Bool.false_eq_true, if_false]
    exact ⟨_, _, rfl⟩
  · cases hL : llm.loadError
    · cases hC : llm.completion
      case error msg =>
        simp only []
        exact ⟨_, _, rfl⟩
      case ok v =>
        exfalso
        rcases hcause with h | h | ⟨msg, hmsg⟩
        · rw [hA] at h; exact Bool.noConfusion h
        · rw [hL] at h; exact h rfl
        · rw [hC] at hmsg; exact Except.noConfusion hmsg
    · simp only []
      exact ⟨_, _, rfl⟩

/-- **C1** (confirmed): with `useLLM=true` and the model path failing (model
absent, load failure, or inference error), the conversion succeeds with the
deterministic renderer's finalized output and a `fallback-start` event when
`llmFallback` is left at its default or set `true`; with `llmFallback=false`
the same error is propagated. -/
theorem C1_fallback_guarantee (ext : Ext) (llm : LLMOracle) (html : String) (oin : OptionsIn)
    (hllm : oin.useLLM = some true)
    (hcause : llm.available = false ∨ llm.loadError ≠ none ∨ ∃ msg, llm.completion = .error msg) :
    ((oin.llmFallback = none ∨ oin.llmFallback = some true) →
      ∃ res evs r,
        convertAsync ext llm html oin = .ok (res, evs) ∧
        res = finalizeConversion ext html (ext.preprocess html (normalizeOptions oin)).contentHtml
            (convertWithTurndown ext (ext.preprocess html (normalizeOptions oin)).contentHtml)
            (ext.preprocess html (normalizeOptions oin)).metadata (normalizeOptions oin)
            (ext.preprocess html (normalizeOptions oin)).readabilitySuccess ∧
        LLMEv.fallbackStart r ∈ evs) ∧
    (oin.llmFallback = some false →
      ∃ e evs,
        convertWithLLM llm (ext.preprocess html (normalizeOptions oin)).contentHtml
            = (.error e, evs) ∧
        convertAsync ext llm html oin = .error e) := by
  have hOpt : (normalizeOptions oin).useLLM = true := by simp [normalizeOptions, hllm]
  obtain ⟨e, evs0, hE⟩ :=
    convertWithLLM_error llm (ext.preprocess html (normalizeOptions oin)).contentHtml hcause
  constructor
  · intro hFB
    have hFBtrue : (normalizeOptions oin).llmFallback = true := by
      rcases hFB with h | h <;> simp [normalizeOptions, h]
    have hMain : convertAsync ext llm html oin =
        .ok (finalizeConversion ext html (ext.preprocess html (normalizeOptions oin)).contentHtml
              (convertWithTurndown ext (ext.preprocess html (normalizeOptions oin)).contentHtml)
              (ext.preprocess html (normalizeOptions oin)).metadata (normalizeOptions oin)
              (ext.preprocess html (normalizeOptions oin)).readabilitySuccess,
            evs0 ++ [.fallbackStart e]) := by
      simp [convertAsync, hOpt, hE, hFBtrue]
    exact ⟨_, _, e, hMain, rfl, by simp⟩
  · intro hFB
    have hFBfalse : (normalizeOptions oin).llmFallback = false := by
      simp [normalizeOptions, hFB]
    exact ⟨e, evs0, hE, by simp [convertAsync, hOpt, hE, hFBfalse]⟩

/-- **C1 witness**: model absent, default `llmFallback` — the conversion
succeeds and emits a fallback event. -/
theorem C1_witness :
    ∃ res evs r,
      convertAsync extUnit llmAbsent "<p>x</p>" c1Opts = .ok (res, evs) ∧
        res = finalizeConversion extUnit "<p>x</p>"
            (extUnit.preprocess "<p>x</p>" (normalizeOptions c1Opts)).contentHtml
            (convertWithTurndown extUnit
              (extUnit.preprocess "<p>x</p>" (normalizeOptions c1Opts)).contentHtml)
            (extUnit.preprocess "<p>x</p>" (normalizeOptions c1Opts)).metadata
            (normalizeOptions c1Opts)
            (extUnit.preprocess "<p>x</p>" (normalizeOptions c1Opts)).readabilitySuccess ∧
        LLMEv.fallbackStart r ∈ evs := by
  have h := (C1_fallback_guarantee extUnit llmAbsent "<p>x</p>" c1Opts rfl (Or.inl rfl)).1 (Or.inl rfl)
  simpa using h

/-- `finalizeConversion`'s markdown field, unfolded (definitional). -/
theorem finalize_markdown (ext : Ext) (origHtml contentHtml markdown : String)
    (metadata : List (String × Option MetaVal)) (opts : Opts) (rs : Bool) :
    (finalizeConversion ext origHtml contentHtml markdown metadata opts rs).markdown =
      if opts.maxLength ≠ 0 &&
          (untruncated ext markdown metadata opts).length > opts.maxLength then
        String.mk ((untruncated ext markdown metadata opts).data.take opts.maxLength) ++ truncMarker
      else untruncated ext markdown metadata opts := rfl

theorem isPrefixL_append_self (p u : List Char) : isPrefixL p (p ++ u) = true := by
  induction p with
  | nil => rfl
  | cons c cs ih => simp [isPrefixL, ih]

/-- Anything ending in the truncation-marker string ends with
`"[Content truncated]"`. -/
theorem suffix_marker_append (a : List Char) :
    isSuffixL "[Content truncated]".data (a ++ truncMarker.data) = true := by
  unfold isSuffixL
  rw [List.reverse_append]
  have h : truncMarker.data.reverse = "[Content truncated]".data.reverse ++ ['\n', '\n'] := by
    decide
  rw [h, List.append_assoc]
  exact isPrefixL_append_self _ _

/-- A string ending in a newline does not end with `"[Content truncated]"`. -/
theorem not_suffix_marker_newline (y : List Char) :
    isSuffixL "[Content truncated]".data (y ++ ['\n']) = false := by
  unfold isSuffixL
  rw [List.reverse_append]
  have h : "[Content truncated]".data.reverse = ']' :: "detacnurt tnetnoC[".data := by decide
  rw [h]
  simp [isPrefixL]

/-- The post-processed markdown always ends in a newline
(`postProcess` returns `` `${markdown.trim()}\n` ``). -/
theorem untruncated_ends_newline (ext : Ext) (markdown : String)
    (metadata : List (String × Option MetaVal)) (opts : Opts) :
    ∃ y, (untruncated ext markdown metadata opts).data = y ++ ['\n'] :=
  ⟨_, rfl⟩

/-- **C2** (corrected): with `maxLength` set to a positive `N`, the final
markdown has length at most `N + 21` and ends with `"[Content truncated]"`
iff the post-processed markdown before truncation was strictly longer than
`N`.  (With `maxLength = 0` the `opts.maxLength &&` truthiness guard skips
truncation entirely — see the counterexample.) -/
theorem C2_truncation_bound (ext : Ext) (oin : OptionsIn) (N : Nat)
    (origHtml contentHtml markdown : String) (metadata : List (String × Option MetaVal))
    (rs : Bool) (hN : oin.maxLength = some N) (h1 : 1 ≤ N) :
    (finalizeConversion ext origHtml contentHtml markdown metadata
        (normalizeOptions oin) rs).markdown.length ≤ N + 21 ∧
      (strSuffix "[Content truncated]"
          (finalizeConversion ext origHtml contentHtml markdown metadata
            (normalizeOptions oin) rs).markdown = true ↔
        N < (untruncated ext markdown metadata (normalizeOptions oin)).length) := by
  have hmax : (normalizeOptions oin).maxLength = N := by simp [normalizeOptions, hN]
  rw [finalize_markdown, hmax]
  set md2 := untruncated ext markdown metadata (normalizeOptions oin) with hmd2
  by_cases hlen : md2.length > N
  · rw [if_pos (by simp only [Bool.and_eq_true, decide_eq_true_eq]; exact ⟨by omega, hlen⟩)]
    have hdata : md2.length = md2.data.length := rfl
    have htake : (md2.data.take N).length = N := by
      rw [List.length_take]; omega
    constructor
    · have : (String.mk (md2.data.take N) ++ truncMarker).length = N + 21 := by
        rw [String.length_append]
        have h21 : truncMarker.length = 21 := by decide
        have hmk : (String.mk (md2.data.take N)).length = (md2.data.take N).length := rfl
        omega
      omega
    · constructor
      · intro _; exact hlen
      · intro _
        show isSuffixL _ (String.mk (md2.data.take N) ++ truncMarker).data = true
        have : (String.mk (md2.data.take N) ++ truncMarker).data
            = md2.data.take N ++ truncMarker.data := by
          simp
        rw [this]
        exact suffix_marker_append _
  · rw [if_neg (by simp only [Bool.and_eq_true, decide_eq_true_eq]; rintro ⟨-, h⟩; exact hlen h)]
    refine ⟨by omega, ?_⟩
    obtain ⟨y, hy⟩ := untruncated_ends_newline ext markdown metadata (normalizeOptions oin)
    constructor
    · intro h
      exfalso
      have : isSuffixL "[Content truncated]".data md2.data = true := h
      rw [hy] at this
      rw [not_suffix_marker_newline] at this
      exact Bool.false_ne_true this
    · intro h; exact absurd h hlen

/-- **C2 witness**: `maxLength = 5` on an 11-character rendering — the bound
holds. -/
theorem C2_witness :
    (finalizeConversion extUnit "" "" "Hello world" [] (normalizeOptions c2OptsFive)
        false).markdown.length ≤ 5 + 21 :=
  (C2_truncation_bound extUnit c2OptsFive 5 "" "" "Hello world" [] false rfl (by decide)).1

/-- **C2 counterexample**: with `maxLength` set to `0` the truthiness guard
`opts.maxLength && …` disables truncation, so the output exceeds
`0 + 21` characters and carries no marker although the untruncated output
exceeds `maxLength`. -/
theorem C2_counterexample :
    (normalizeOptions c2OptsZero).maxLength = 0 ∧
      ¬ (finalizeConversion extUnit "" "" "This is a long paragraph of text." []
          (normalizeOptions c2OptsZero) false).markdown.length ≤ 0 + 21 ∧
      0 < (untruncated extUnit "This is a long paragraph of text." []
          (normalizeOptions c2OptsZero)).length ∧
      strSuffix "[Content truncated]"
          (finalizeConversion extUnit "" "" "This is a long paragraph of text." []
            (normalizeOptions c2OptsZero) false).markdown = false := by
  refine ⟨rfl, by decide, by decide, by decide⟩

/-- **C9** (confirmed): an input recognised by `isValidUrl` (an absolute
http/https URL) is never converted as HTML: `convertToMarkdown` routes it
through `fetchAndConvert`, and the parser receives the fetched body. -/
theorem C9_url_input_is_fetched (ext : Ext) (uext : UrlExt) (html : String) (oin : OptionsIn)
    (h : uext.isValidUrl html = true) :
    convertToMarkdown ext uext html oin = fetchAndConvert ext uext html oin ∧
      convertToMarkdown ext uext html oin =
        convertSync ext (uext.fetchUrl html) (buildMarkdownOptions oin html) := by
  constructor <;> simp [convertToMarkdown, fetchAndConvert, h]

/-- **C9 witness**. -/
theorem C9_witness :
    convertToMarkdown extUnit uextEx "https://example.com" {} =
      convertSync extUnit (uextEx.fetchUrl "https://example.com")
        (buildMarkdownOptions {} "https://example.com") :=
  (C9_url_input_is_fetched extUnit uextEx "https://example.com" {} (by decide)).2

/-- **C10** (confirmed): a non-URL input goes through the synchronous
`MarkdownParser.convert`, which never performs main-content extraction:
`extractContent` is forced off (its caller-supplied value is irrelevant)
and `stats.readabilitySuccess` is always `false`. -/
theorem C10_sync_path_no_extraction (ext : Ext) (uext : UrlExt) (html : String) (oin : OptionsIn)
    (h : uext.isValidUrl html = false) :
    convertToMarkdown ext uext html oin = convertSync ext html oin ∧
      (convertSync ext html oin).stats.readabilitySuccess = false ∧
      ∀ b, convertSync ext html { oin with extractContent := b } = convertSync ext html oin := by
  refine ⟨by simp [convertToMarkdown, h], rfl, ?_⟩
  intro b
  have hopts : ({ normalizeOptions { oin with extractContent := b } with extractContent := false } : Opts)
      = { normalizeOptions oin with extractContent := false } := by
    simp [normalizeOptions]
  simp only [convertSync, hopts]

/-- **C10 witness**. -/
theorem C10_witness :
    (convertSync extUnit "<p>a</p>" {}).stats.readabilitySuccess = false :=
  (C10_sync_path_no_extraction extUnit uextEx "<p>a</p>" {} (by decide)).2.1

/-! ### Prefix preservation through `postProcess` (for C5): the rewrites of
`postProcess` never touch a leading `---` fence. -/

theorem isPrefixL_length {p x : List Char} (h : isPrefixL p x = true) :
    p.length ≤ x.length := by
  induction p generalizing x with
  | nil => simp
  | cons a p ih =>
    cases x with
    | nil => exact absurd h (by simp [isPrefixL])
    | cons c cs =>
      simp only [isPrefixL, Bool.and_eq_true] at h
      have := ih h.2
      simp only [List.length_cons]
      omega

theorem isPrefixL_iff_append {p l : List Char} : isPrefixL p l = true ↔ ∃ u, l = p ++ u := by
  induction p generalizing l with
  | nil => simp [isPrefixL]
  | cons a p ih =>
    cases l with
    | nil => simp [isPrefixL]
    | cons c cs =>
      simp only [isPrefixL, Bool.and_eq_true, decide_eq_true_eq, List.cons_append,
        List.cons.injEq]
      constructor
      · rintro ⟨h1, h2⟩
        obtain ⟨u, hu⟩ := ih.mp h2
        exact ⟨u, h1.symm, hu⟩
      · rintro ⟨u, h1, h2⟩
        exact ⟨h1.symm, ih.mpr ⟨u, h2⟩⟩

theorem isPrefixL_of_append_long {p x : List Char} (y : List Char)
    (hlen : p.length ≤ x.length) (h : isPrefixL p (x ++ y) = true) :
    isPrefixL p x = true := by
  induction p generalizing x with
  | nil => rfl
  | cons a p ih =>
    cases x with
    | nil => simp at hlen
    | cons c cs =>
      simp only [List.cons_append, isPrefixL, Bool.and_eq_true] at h ⊢
      refine ⟨h.1, ih ?_ h.2⟩
      simpa using hlen

theorem isPrefixL_of_take {p l : List Char} (n : Nat)
    (h : isPrefixL p (l.take n) = true) : isPrefixL p l = true := by
  obtain ⟨u, hu⟩ := isPrefixL_iff_append.mp h
  refine isPrefixL_iff_append.mpr ⟨u ++ l.drop n, ?_⟩
  conv_lhs => rw [← List.take_append_drop n l]
  rw [hu, List.append_assoc]

theorem not_prefix_dash3_short (x y : List Char) (hx : x.length ≤ 2) :
    isPrefixL dash3 (x ++ '\n' :: y) = false := by
  have hnl : (decide (('-' : Char) = '\n')) = false := by decide
  rcases x with _ | ⟨a, _ | ⟨b, _ | ⟨c, z⟩⟩⟩
  · simp [dash3, isPrefixL, hnl]
  · simp [dash3, isPrefixL, hnl]
  · simp [dash3, isPrefixL, hnl]
  · exfalso; simp at hx

theorem stepA_dash3 (u : List Char) : stepA (dash3 ++ u) = dash3 ++ stepA u := rfl

theorem tryB_dash_dash (x : List Char) : tryB ('-' :: '-' :: x) = none := by
  simp [tryB, parseMarker, List.takeWhile_cons, show jsWs '-' = false from by decide]

theorem scanB_start_dash_dash (fuel : Nat) (x : List Char) :
    scanB (fuel + 1) true ('-' :: '-' :: x) = '-' :: scanB fuel false ('-' :: x) := by
  simp [scanB, tryB_dash_dash, show (decide (('-' : Char) = '\n')) = false from by decide]

theorem scanB_false_cons (fuel : Nat) (x : List Char) :
    scanB (fuel + 1) false ('-' :: x) = '-' :: scanB fuel false x := by
  simp [scanB, show (decide (('-' : Char) = '\n')) = false from by decide]

theorem stepB_dash3 (u : List Char) :
    stepB (dash3 ++ u) = dash3 ++ scanB u.length false u := by
  show scanB ((dash3 ++ u).length) true (dash3 ++ u) = _
  have hlen : (dash3 ++ u).length = (u.length + 1 + 1) + 1 := by simp [dash3]
  rw [hlen]
  show scanB ((u.length + 1 + 1) + 1) true ('-' :: '-' :: '-' :: u) = _
  rw [scanB_start_dash_dash, scanB_false_cons, scanB_false_cons]
  rfl

theorem cMatch_dash_of_dash (x : List Char) : cMatch '-' ('-' :: x) = false := by
  simp [cMatch, isPrefixL, show (decide (('\n' : Char) = '-')) = false from by decide]

theorem scanC_dash_head (fuel : Nat) (x : List Char) :
    ∃ v, scanC (fuel + 1) ('-' :: x) = '-' :: v := by
  simp only [scanC]
  by_cases h : cMatch '-' x = true
  · rw [if_pos h]; exact ⟨_, rfl⟩
  · rw [if_neg h]; exact ⟨_, rfl⟩

theorem scanC_dash_of_dash (fuel : Nat) (x : List Char) :
    scanC (fuel + 1) ('-' :: '-' :: x) = '-' :: scanC fuel ('-' :: x) := by
  simp [scanC, cMatch_dash_of_dash]

theorem stepC_dash3 (u : List Char) : ∃ v, stepC (dash3 ++ u) = dash3 ++ v := by
  show ∃ v, scanC ((dash3 ++ u).length) (dash3 ++ u) = dash3 ++ v
  have hlen : (dash3 ++ u).length = (u.length + 1 + 1) + 1 := by simp [dash3]
  rw [hlen]
  show ∃ v, scanC ((u.length + 1 + 1) + 1) ('-' :: '-' :: '-' :: u) = dash3 ++ v
  rw [scanC_dash_of_dash, scanC_dash_of_dash]
  obtain ⟨v, hv⟩ := scanC_dash_head u.length u
  exact ⟨v, by rw [hv]; rfl⟩

theorem dMatch_dash (t : List Char) : dMatch '-' t = false := by
  simp [dMatch, show (decide (('-' : Char) = '`')) = false from by decide]

theorem scanD_dash (fuel : Nat) (t : List Char) :
    scanD (fuel + 1) ('-' :: t) = '-' :: scanD fuel t := by
  simp [scanD, dMatch_dash]

theorem stepD_dash3 (u : List Char) : stepD (dash3 ++ u) = dash3 ++ scanD u.length u := by
  show scanD ((dash3 ++ u).length) (dash3 ++ u) = _
  have hlen : (dash3 ++ u).length = (u.length + 1 + 1) + 1 := by simp [dash3]
  rw [hlen]
  show scanD ((u.length + 1 + 1) + 1) ('-' :: '-' :: '-' :: u) = _
  rw [scanD_dash, scanD_dash, scanD_dash]
  rfl

theorem eMatch_dash (t : List Char) : eMatch '-' t = false := by
  simp [eMatch]

theorem scanE_dash (fuel : Nat) (t : List Char) :
    scanE (fuel + 1) ('-' :: t) = '-' :: scanE fuel t := by
  simp [scanE, eMatch_dash]

theorem stepE_dash3 (u : List Char) : stepE (dash3 ++ u) = dash3 ++ scanE u.length u := by
  show scanE ((dash3 ++ u).length) (dash3 ++ u) = _
  have hlen : (dash3 ++ u).length = (u.length + 1 + 1) + 1 := by simp [dash3]
  rw [hlen]
  show scanE ((u.length + 1 + 1) + 1) ('-' :: '-' :: '-' :: u) = _
  rw [scanE_dash, scanE_dash, scanE_dash]
  rfl

theorem splitNl_ne_nil (l : List Char) : splitNl l ≠ [] := by
  induction l with
  | nil => simp [splitNl]
  | cons c t ih =>
    simp only [splitNl]
    split
    · simp
    · split
      · simp
      · simp

theorem splitNl_cons_dash (t : List Char) (l0 : List Char) (ls : List (List Char))
    (h : splitNl t = l0 :: ls) : splitNl ('-' :: t) = ('-' :: l0) :: ls := by
  simp only [splitNl, show (('-' : Char) = '\n') = False from by simp, if_false, h]

theorem hrLoop_acc_reverse (rem : List (List Char)) :
    ∀ (acc : List (List Char)) (cnt : Nat), ∃ s, hrLoop acc cnt rem = acc.reverse ++ s := by
  induction rem with
  | nil => intro acc cnt; exact ⟨[], by simp [hrLoop]⟩
  | cons l rest ih =>
    intro acc cnt
    simp only [hrLoop]
    split
    · split
      · obtain ⟨s, hs⟩ := ih (l :: acc) (cnt + 1)
        exact ⟨[l] ++ s, by rw [hs]; simp⟩
      · split
        · obtain ⟨s, hs⟩ := ih (l :: acc) (cnt + 1)
          exact ⟨[l] ++ s, by rw [hs]; simp⟩
        · by_cases h1 : hrNeighborSolid (acc.headD []) = true
          · by_cases h2 : hrNeighborSolid (rest.headD []) = true
            · simp only [if_pos h1, if_pos h2]
              obtain ⟨s, hs⟩ := ih ([] :: l :: [] :: acc) (cnt + 1)
              exact ⟨[[], l, []] ++ s, by rw [hs]; simp⟩
            · simp only [if_pos h1, if_neg h2]
              obtain ⟨s, hs⟩ := ih (l :: [] :: acc) (cnt + 1)
              exact ⟨[[], l] ++ s, by rw [hs]; simp⟩
          · by_cases h2 : hrNeighborSolid (rest.headD []) = true
            · simp only [if_neg h1, if_pos h2]
              obtain ⟨s, hs⟩ := ih ([] :: l :: acc) (cnt + 1)
              exact ⟨[l, []] ++ s, by rw [hs]; simp⟩
            · simp only [if_neg h1, if_neg h2]
              obtain ⟨s, hs⟩ := ih (l :: acc) (cnt + 1)
              exact ⟨[l] ++ s, by rw [hs]; simp⟩
    · obtain ⟨s, hs⟩ := ih (l :: acc) cnt
      exact ⟨[l] ++ s, by rw [hs]; simp⟩

theorem hrLoop_first (L : List Char) (Ls : List (List Char)) :
    ∃ s, hrLoop [] 0 (L :: Ls) = L :: s := by
  simp only [hrLoop]
  split
  · simp only [show 0 + 1 ≤ 2 from by omega, if_true]
    obtain ⟨s, hs⟩ := hrLoop_acc_reverse Ls [L] 1
    exact ⟨s, by rw [hs]; simp⟩
  · obtain ⟨s, hs⟩ := hrLoop_acc_reverse Ls [L] 0
    exact ⟨s, by rw [hs]; simp⟩

theorem joinNl_cons (L : List Char) (s : List (List Char)) :
    ∃ w, joinNl (L :: s) = L ++ w := by
  cases s with
  | nil => exact ⟨[], by simp [joinNl]⟩
  | cons a b => exact ⟨'\n' :: joinNl (a :: b), rfl⟩

theorem splitNl_dash3 (u : List Char) :
    ∃ l0 ls, splitNl (dash3 ++ u) = ('-' :: '-' :: '-' :: l0) :: ls := by
  obtain ⟨l0, ls, h⟩ : ∃ l0 ls, splitNl u = l0 :: ls := by
    cases h : splitNl u with
    | nil => exact absurd h (splitNl_ne_nil u)
    | cons a b => exact ⟨a, b, rfl⟩
  have h1 := splitNl_cons_dash u l0 ls h
  have h2 := splitNl_cons_dash ('-' :: u) ('-' :: l0) ls h1
  have h3 := splitNl_cons_dash ('-' :: '-' :: u) ('-' :: '-' :: l0) ls h2
  exact ⟨l0, ls, h3⟩

theorem stepF_dash3 (u : List Char) : ∃ v, stepF (dash3 ++ u) = dash3 ++ v := by
  obtain ⟨l0, ls, hsplit⟩ := splitNl_dash3 u
  unfold stepF
  rw [hsplit]
  obtain ⟨s, hs⟩ := hrLoop_first ('-' :: '-' :: '-' :: l0) ls
  rw [hs]
  obtain ⟨w, hw⟩ := joinNl_cons ('-' :: '-' :: '-' :: l0) s
  rw [hw]
  exact ⟨l0 ++ w, by simp [dash3]⟩

theorem dropWhileRight_dash3 (p : Char → Bool) (hp : p '-' = false) (y : List Char) :
    ∃ z, ((dash3 ++ y).reverse.dropWhile p).reverse = dash3 ++ z := by
  rw [List.reverse_append]
  have hd3 : dash3.reverse = dash3 := by decide
  rw [hd3]
  rw [List.dropWhile_append]
  split
  · have : List.dropWhile p dash3 = dash3 := by
      simp [dash3, List.dropWhile_cons, hp]
    rw [this, hd3]
    exact ⟨[], by simp⟩
  · rw [List.reverse_append, hd3]
    exact ⟨(List.dropWhile p y.reverse).reverse, rfl⟩

theorem stepG_dash3 (u : List Char) : ∃ v, stepG (dash3 ++ u) = dash3 ++ v := by
  obtain ⟨l0, ls, hsplit⟩ := splitNl_dash3 u
  unfold stepG
  rw [hsplit]
  rw [List.map_cons]
  obtain ⟨z, hz⟩ := dropWhileRight_dash3 wsNoNl (by decide) l0
  have hline : (('-' :: '-' :: '-' :: l0).reverse.dropWhile wsNoNl).reverse = dash3 ++ z := hz
  rw [hline]
  obtain ⟨w, hw⟩ := joinNl_cons (dash3 ++ z) _
  rw [hw]
  exact ⟨z ++ w, by simp⟩

theorem trimL_dash3 (y : List Char) : ∃ z, trimL (dash3 ++ y) = dash3 ++ z := by
  unfold trimL trimLeftL trimRightL
  have h1 : (dash3 ++ y).dropWhile jsWs = dash3 ++ y := by
    simp [dash3, List.dropWhile_cons, show jsWs '-' = false from by decide]
  rw [h1]
  exact dropWhileRight_dash3 jsWs (by decide) y

theorem postProcessL_dash3 (u : List Char) :
    ∃ v, postProcessL (dash3 ++ u) = dash3 ++ v := by
  unfold postProcessL
  rw [stepA_dash3, stepB_dash3]
  obtain ⟨v1, h1⟩ := stepC_dash3 (scanB (stepA u).length false (stepA u))
  rw [h1, stepD_dash3, stepE_dash3]
  obtain ⟨v2, h2⟩ := stepF_dash3 (scanE (scanD v1.length v1).length (scanD v1.length v1))
  rw [h2]
  obtain ⟨v3, h3⟩ := stepG_dash3 v2
  rw [h3]
  obtain ⟨v4, h4⟩ := trimL_dash3 v3
  rw [h4]
  exact ⟨v4 ++ ['\n'], by simp⟩

theorem postProcess_keeps_dash3 {s : String} (h : isPrefixL dash3 s.data = true) :
    isPrefixL dash3 (postProcess s).data = true := by
  obtain ⟨u, hu⟩ := isPrefixL_iff_append.mp h
  show isPrefixL dash3 (postProcessL s.data) = true
  rw [hu]
  obtain ⟨v, hv⟩ := postProcessL_dash3 u
  rw [hv]
  exact isPrefixL_iff_append.mpr ⟨v, rfl⟩

theorem addFrontmatter_dash3 (md : String) (meta : List (String × Option MetaVal)) :
    ∃ u, (addFrontmatter md meta).data = dash3 ++ u := by
  have h4 : "---\n".data = dash3 ++ ['\n'] := by decide
  unfold addFrontmatter
  simp only [String.data_append, h4, List.append_assoc]
  exact ⟨_, rfl⟩

/-- **C5** (corrected): with `includeMeta=true` (metadata always non-empty,
since word-count fields are added) the finalized markdown starts with `---`
provided truncation does not cut below 3 characters; with `includeMeta=false`
frontmatter is never prepended — the output starts with `---` only if the
post-processed rendered markdown itself already does (e.g. a rendered
horizontal rule at the top). -/
theorem C5_frontmatter_presence (ext : Ext) (opts : Opts)
    (origHtml contentHtml markdown : String) (metadata : List (String × Option MetaVal))
    (rs : Bool) :
    (opts.includeMeta = true →
        (3 ≤ opts.maxLength ∨ opts.maxLength = 0 ∨
          (untruncated ext markdown metadata opts).length ≤ opts.maxLength) →
        strPrefix "---"
          (finalizeConversion ext origHtml contentHtml markdown metadata opts rs).markdown
          = true) ∧
      (opts.includeMeta = false →
        strPrefix "---"
            (finalizeConversion ext origHtml contentHtml markdown metadata opts rs).markdown
            = true →
        strPrefix "---" (postProcess markdown) = true) := by
  have hdd : "---".data = dash3 := by decide
  constructor
  · intro hIM hTr
    have hw : (withMeta ext markdown metadata opts).1 =
        addFrontmatter markdown (metadata ++
          [("wordCount", some (.n (ext.wordStats markdown).1)),
           ("readingTime", some (.n (ext.wordStats markdown).2))]) := by
      simp [withMeta, hIM]
    obtain ⟨v, hv⟩ : ∃ v, (untruncated ext markdown metadata opts).data = dash3 ++ v := by
      unfold untruncated
      rw [hw]
      obtain ⟨u, hu⟩ := addFrontmatter_dash3 markdown _
      show ∃ v, postProcessL (addFrontmatter markdown _).data = dash3 ++ v
      rw [hu]
      exact postProcessL_dash3 u
    rw [finalize_markdown]
    by_cases hc : (opts.maxLength ≠ 0 &&
        (untruncated ext markdown metadata opts).length > opts.maxLength) = true
    · rw [if_pos hc]
      simp only [Bool.and_eq_true, decide_eq_true_eq] at hc
      have hN3 : 3 ≤ opts.maxLength := by
        rcases hTr with h | h | h
        · exact h
        · exact absurd h hc.1
        · omega
      simp only [strPrefix, hdd]
      have hdata : (String.mk ((untruncated ext markdown metadata opts).data.take opts.maxLength)
          ++ truncMarker).data =
          (untruncated ext markdown metadata opts).data.take opts.maxLength
            ++ truncMarker.data := by
        simp
      rw [hdata, hv, List.take_append_eq_append_take,
        List.take_of_length_le (by simp [dash3]; omega), List.append_assoc]
      exact isPrefixL_append_self _ _
    · rw [if_neg (by simp only [hc]; exact Bool.noConfusion)]
      simp only [strPrefix, hdd, hv]
      exact isPrefixL_append_self _ _
  · intro hIM hpre
    have hw : (withMeta ext markdown metadata opts).1 = markdown := by
      simp [withMeta, hIM]
    have hunt : untruncated ext markdown metadata opts = postProcess markdown := by
      unfold untruncated
      rw [hw]
    rw [finalize_markdown] at hpre
    by_cases hc : (opts.maxLength ≠ 0 &&
        (untruncated ext markdown metadata opts).length > opts.maxLength) = true
    · rw [if_pos hc] at hpre
      simp only [Bool.and_eq_true, decide_eq_true_eq] at hc
      simp only [strPrefix, hdd] at hpre ⊢
      have hdata : (String.mk ((untruncated ext markdown metadata opts).data.take opts.maxLength)
          ++ truncMarker).data =
          (untruncated ext markdown metadata opts).data.take opts.maxLength
            ++ truncMarker.data := by
        simp
      rw [hdata] at hpre
      by_cases h3 : 3 ≤ opts.maxLength
      · have h1 : isPrefixL dash3
            ((untruncated ext markdown metadata opts).data.take opts.maxLength) = true := by
          refine isPrefixL_of_append_long truncMarker.data ?_ hpre
          rw [List.length_take]
          have hc2 : opts.maxLength < (untruncated ext markdown metadata opts).length := hc.2
          have : (untruncated ext markdown metadata opts).length
              = (untruncated ext markdown metadata opts).data.length := rfl
          simp [dash3]
          omega
        have h2 := isPrefixL_of_take _ h1
        rw [hunt] at h2
        exact h2
      · exfalso
        have hlen2 : ((untruncated ext markdown metadata opts).data.take opts.maxLength).length
            ≤ 2 := by
          rw [List.length_take]
          omega
        have hmk : truncMarker.data = '\n' :: "\n[Content truncated]".data := by decide
        rw [hmk] at hpre
        have hF : isPrefixL dash3
            ((untruncated ext markdown metadata opts).data.take opts.maxLength
              ++ '\n' :: "\n[Content truncated]".data) = false :=
          not_prefix_dash3_short _ _ hlen2
        exact Bool.noConfusion (Eq.trans hpre.symm hF)
    · rw [if_neg (by simp only [hc]; exact Bool.noConfusion)] at hpre
      rw [← hunt]
      exact hpre

/-- **C5 witness**: default options (`includeMeta` true, `maxLength`
1000000). -/
theorem C5_witness :
    strPrefix "---"
      (finalizeConversion extUnit "" "" "Hello" [] (normalizeOptions {}) false).markdown
      = true :=
  (C5_frontmatter_presence extUnit (normalizeOptions {}) "" "" "Hello" [] false).1 rfl
    (Or.inl (by decide))

/-- **C5 counterexample**: `includeMeta=true` with non-empty metadata, but
`maxLength = 1` — truncation cuts the frontmatter fence, so the output does
not start with `---`. -/
theorem C5_counterexample :
    (normalizeOptions c5OptsTrunc).includeMeta = true ∧
      (normalizeOptions c5OptsTrunc).maxLength = 1 ∧
      strPrefix "---"
        (finalizeConversion extUnit "" "" "Hello" [] (normalizeOptions c5OptsTrunc)
          false).markdown = false := by
  refine ⟨rfl, rfl, by decide⟩

/-! ### C7: the noise-phrase rule -/

/-- **C7** (corrected): the phrase rule removes an element exactly when its
trimmed lower-cased text is at most 200 characters long (the source keeps
elements with `textLength > 200`, so length exactly 200 is removable — the
claim's strict `< 200` bound is off by one) and the lower-cased text
contains a boilerplate phrase; all other elements are kept with their
children filtered recursively. -/
theorem C7_phrase_removal (t : String) (a : List (String × String)) (cs rest : List Node) :
    (noiseMatch (lowerL (textL cs)) = true ↔
      (trimL (lowerL (textL cs))).length ≤ 200 ∧
        hasNoisePhrase (lowerL (textL cs)) = true) ∧
    rmNoiseL (.elem t a cs :: rest) =
      (if noiseMatch (lowerL (textL cs)) then rmNoiseL rest
       else .elem t a (rmNoiseL cs) :: rmNoiseL rest) := by
  constructor
  · unfold noiseMatch
    by_cases h : 200 < (trimL (lowerL (textL cs))).length
    · rw [if_pos h]
      constructor
      · intro hf
        exact Bool.noConfusion hf
      · intro hc
        omega
    · rw [if_neg h]
      constructor
      · intro hp
        exact ⟨by omega, hp⟩
      · intro hc
        exact hc.2
  · simp only [rmNoiseL, rmNoiseN]
    by_cases h : noiseMatch (lowerL (textL cs)) = true
    · simp [h]
    · simp [h]

set_option maxRecDepth 8000 in
/-- **C7 counterexample**: a div whose text is exactly 200 characters and
mentions `newsletter` is removed by the phrase rule, although the claim
says elements with text of length at least 200 are never removed. -/
theorem C7_counterexample :
    (trimL (lowerL (textN c7Node))).length = 200 ∧ rmNoiseL [c7Node] = [] := by
  exact ⟨by decide, rfl⟩

/-! ### C3: heading monotonicity of the structure enhancer -/

theorem hlL_append (xs ys : List Node) : hlL (xs ++ ys) = hlL xs ++ hlL ys := by
  induction xs with
  | nil => rfl
  | cons c r ih => simp [hlL, ih]

mutual
theorem noHead_hlN : ∀ n : Node, noHeadN n = true → hlN n = []
  | .text _, _ => rfl
  | .elem t a cs, h => by
    simp only [noHeadN, Bool.and_eq_true] at h
    have hn : hLevel t = none := Option.isNone_iff_eq_none.mp h.1
    simp [hlN, hn, noHead_hlL cs h.2]
theorem noHead_hlL : ∀ cs : List Node, noHeadL cs = true → hlL cs = []
  | [], _ => rfl
  | c :: r, h => by
    simp only [noHeadL, Bool.and_eq_true] at h
    simp [hlL, noHead_hlN c h.1, noHead_hlL r h.2]
end

mutual
theorem noHead_threadN : ∀ (n : Node) (last : Nat), noHeadN n = true → threadN last n = last
  | .text _, _, _ => rfl
  | .elem t a cs, last, h => by
    simp only [noHeadN, Bool.and_eq_true] at h
    have hn : hLevel t = none := Option.isNone_iff_eq_none.mp h.1
    simp [threadN, hn, noHead_threadL cs last h.2]
theorem noHead_threadL : ∀ (cs : List Node) (last : Nat), noHeadL cs = true →
    threadL last cs = last
  | [], _, _ => rfl
  | c :: r, last, h => by
    simp only [noHeadL, Bool.and_eq_true] at h
    simp [threadL, noHead_threadN c last h.1, noHead_threadL r _ h.2]
end

mutual
theorem noHead_normN : ∀ (n : Node) (last : Nat), noHeadN n = true →
    hlN ((normHN last n).1) = [] ∧ (normHN last n).2 = last
  | .text _, _, _ => ⟨rfl, rfl⟩
  | .elem t a cs, last, h => by
    simp only [noHeadN, Bool.and_eq_true] at h
    have hn : hLevel t = none := Option.isNone_iff_eq_none.mp h.1
    have ih := noHead_normL cs last h.2
    constructor
    · simp [normHN, hn, hlN, ih.1]
    · simp [normHN, hn, ih.2]
theorem noHead_normL : ∀ (cs : List Node) (last : Nat), noHeadL cs = true →
    hlL ((normHLL last cs).1) = [] ∧ (normHLL last cs).2 = last
  | [], _, _ => ⟨rfl, rfl⟩
  | c :: r, last, h => by
    simp only [noHeadL, Bool.and_eq_true] at h
    have ihc := noHead_normN c last h.1
    have ihr := noHead_normL r ((normHN last c).2) h.2
    constructor
    · simp only [normHLL, hlL]
      rw [ihc.1, ihr.1]
      rfl
    · simp only [normHLL]
      rw [ihr.2, ihc.2]
end

theorem hLevel_range {t : String} {k : Nat} (h : hLevel t = some k) : 1 ≤ k ∧ k ≤ 6 := by
  unfold hLevel at h
  split_ifs at h <;> first
    | (injection h with h2; omega)
    | exact Option.noConfusion h

theorem hLevel_hTag {m : Nat} (h1 : 1 ≤ m) (h2 : m ≤ 6) : hLevel (hTag m) = some m := by
  interval_cases m <;> decide

theorem resolveLast_append (last : Nat) (xs ys : List Nat) :
    resolveLast last (xs ++ ys) = resolveLast (resolveLast last xs) ys := by
  induction xs generalizing last with
  | nil => rfl
  | cons k ks ih => simp [resolveLast, ih]

theorem resolve_append (last : Nat) (xs ys : List Nat) :
    resolve last (xs ++ ys) = resolve last xs ++ resolve (resolveLast last xs) ys := by
  induction xs generalizing last with
  | nil => rfl
  | cons k ks ih => simp [resolve, resolveLast, ih]

theorem chain_resolve (last : Nat) (ks : List Nat) :
    chainFrom last (resolve last ks) = true := by
  induction ks generalizing last with
  | nil => rfl
  | cons k ks ih =>
    simp only [resolve, chainFrom, Bool.and_eq_true, decide_eq_true_eq]
    exact ⟨by split <;> omega, ih _⟩

mutual
theorem normRes_N : ∀ (n : Node) (last : Nat), noNestedN n = true → noEmptyHeadN n = true →
    hlN ((normHN last n).1) = resolve last (hlN n) ∧
      (normHN last n).2 = resolveLast last (hlN n)
  | .text _, _, _, _ => ⟨rfl, rfl⟩
  | .elem t a cs, last, hnn, hne => by
    cases hv : hLevel t with
    | none =>
      have hnn' : noNestedL cs = true := by
        simp only [noNestedN, hv] at hnn; exact hnn
      have hne' : noEmptyHeadL cs = true := by
        simp only [noEmptyHeadN, hv, Bool.and_eq_true] at hne; exact hne.2
      have ih := normRes_L cs last hnn' hne'
      constructor
      · simp [normHN, hv, hlN, ih.1]
      · simp [normHN, hv, hlN, ih.2]
    | some k =>
      have hh : noHeadL cs = true := by
        simp only [noNestedN, hv] at hnn; exact hnn
      have hcs : hlL cs = [] := noHead_hlL cs hh
      have hinner : innerNonempty cs = true := by
        simp only [noEmptyHeadN, hv, Bool.and_eq_true] at hne; exact hne.1
      have hk := hLevel_range hv
      by_cases hlt : last + 1 < k
      · have htag : hLevel (hTag (last + 1)) = some (last + 1) :=
          hLevel_hTag (by omega) (by omega)
        constructor
        · simp only [normHN, hv]
          rw [if_pos hlt, if_pos hinner]
          simp only [hlN, htag, hv, hcs, List.append_nil, resolve]
          rw [if_pos hlt]
        · simp only [normHN, hv]
          rw [if_pos hlt, if_pos hinner]
          simp only [hlN, hv, hcs, List.append_nil, resolveLast,
            noHead_threadL cs (last + 1) hh]
          rw [if_pos hlt]
      · have ihl := noHead_normL cs k hh
        constructor
        · simp only [normHN, hv]
          rw [if_neg hlt]
          simp only [hlN, hv, ihl.1, hcs, List.append_nil, resolve]
          rw [if_neg hlt]
        · simp only [normHN, hv]
          rw [if_neg hlt]
          simp only [hlN, hv, ihl.2, hcs, List.append_nil, resolveLast]
          rw [if_neg hlt]
theorem normRes_L : ∀ (cs : List Node) (last : Nat), noNestedL cs = true →
    noEmptyHeadL cs = true →
    hlL ((normHLL last cs).1) = resolve last (hlL cs) ∧
      (normHLL last cs).2 = resolveLast last (hlL cs)
  | [], _, _, _ => ⟨rfl, rfl⟩
  | c :: r, last, hnn, hne => by
    simp only [noNestedL, noEmptyHeadL, Bool.and_eq_true] at hnn hne
    have ihc := normRes_N c last hnn.1 hne.1
    have ihr := normRes_L r ((normHN last c).2) hnn.2 hne.2
    constructor
    · simp only [normHLL, hlL]
      rw [ihc.1, ihr.1, ihc.2, resolve_append]
    · simp only [normHLL, hlL]
      rw [ihr.2, ihc.2, resolveLast_append]
end

mutual
theorem hl_unwrapAN : ∀ (n : Node) (pt : String) (ec : Nat),
    hlL (unwrapAN pt ec n) = hlN n
  | .text s, _, _ => rfl
  | .elem ct ca ccs, pt, ec => by
    simp only [unwrapAN]
    split
    · rename_i hcond
      have hct : hLevel ct = none := by
        by_cases hd : ct = "div"
        · rw [hd]; rfl
        · by_cases hs : ct = "span"
          · rw [hs]; rfl
          · exfalso; simp [hd, hs] at hcond
      simp [hlN, hct]
    · simp [hlL, hlN, hl_unwrapAL ccs ct (countElemL ccs)]
theorem hl_unwrapAL : ∀ (cs : List Node) (pt : String) (ec : Nat),
    hlL (unwrapAL pt ec cs) = hlL cs
  | [], _, _ => rfl
  | c :: r, pt, ec => by
    simp [unwrapAL, hlL_append, hlL, hl_unwrapAN c pt ec, hl_unwrapAL r pt ec]
end

mutual
theorem hl_unwrapBN : ∀ n : Node, hlL (unwrapBN n) = hlN n
  | .text s => rfl
  | .elem ct ca ccs => by
    simp only [unwrapBN]
    split
    · rename_i hcond
      have hp : ct = "p" := by
        simp only [Bool.and_eq_true, decide_eq_true_eq] at hcond
        exact hcond.1
      subst hp
      simp [hlN, hLevel]
    · simp [hlL, hlN, hl_unwrapBL ccs]
theorem hl_unwrapBL : ∀ cs : List Node, hlL (unwrapBL cs) = hlL cs
  | [] => rfl
  | c :: r => by
    simp [unwrapBL, hlL_append, hlL, hl_unwrapBN c, hl_unwrapBL r]
end

/-- **C3** (corrected): after `normalizeHeadings`, provided no heading is
nested inside another heading, every heading has truthy innerHTML, and the
pseudo-heading pass makes no change, the document-order heading levels of
the Structure Enhancer output form a chain in which the first heading is
clamped to level 1 and each heading exceeds its predecessor's resolved
level by at most one.  Unconditionally the claim is false:
`convertPseudoHeadings` runs after `normalizeHeadings` and inserts `h3`
elements regardless of context (see the counterexample). -/
theorem C3_heading_monotonicity (doc : List Node)
    (hnest : noNestedL doc = true) (hempty : noEmptyHeadL doc = true)
    (hpseudo : pseudoL (unwrapBL (unwrapADoc (normHLL 0 doc).1)) =
      unwrapBL (unwrapADoc (normHLL 0 doc).1)) :
    chainFrom 0 (hlL (enhanceStructureL doc)) = true := by
  unfold enhanceStructureL
  rw [hpseudo, hl_unwrapBL]
  unfold unwrapADoc
  rw [hl_unwrapAL]
  rw [(normRes_L doc 0 hnest hempty).1]
  exact chain_resolve 0 (hlL doc)

/-- **C3 witness**: a lone skipping `h3` is clamped to `h1`. -/
theorem C3_witness : chainFrom 0 (hlL (enhanceStructureL c3WDoc)) = true :=
  C3_heading_monotonicity c3WDoc rfl rfl rfl

/-- **C3 counterexample**: a `div.title` pseudo-heading becomes an `h3`
after heading normalization already ran, so the enhanced output's first
heading has level 3 — not clamped to level 1. -/
theorem C3_counterexample :
    hlL (enhanceStructureL c3Doc) = [3] ∧
      chainFrom 0 (hlL (enhanceStructureL c3Doc)) = false :=
  ⟨rfl, rfl⟩

/-! ### C4: idempotence of the code-block normalizer

Slot algebra, then stability lemmas, then the fusion of the four
sequential step-1 passes into `wL`, then the fixed-point lemmas. -/

theorem contCond_tag_false {t : String} (atr : String) (a : List (String × String))
    (cs : List Node) (h : (t = "div" || t = "figure") = false) :
    contCond atr t a cs = false := by
  simp only [contCond, h, Bool.false_and]

theorem contCond_pre (atr : String) (a : List (String × String)) (cs : List Node) :
    contCond atr "pre" a cs = false :=
  contCond_tag_false atr a cs (by decide)

theorem contCond_code (atr : String) (a : List (String × String)) (cs : List Node) :
    contCond atr "code" a cs = false :=
  contCond_tag_false atr a cs (by decide)

theorem contCond_noPre (atr t : String) (a : List (String × String)) {cs : List Node}
    (h : hasPreL cs = false) : contCond atr t a cs = false := by
  simp only [contCond, h, Bool.and_false]

theorem contCond_congr (atr t : String) (a : List (String × String)) {cs₁ cs₂ : List Node}
    (h : hasPreL cs₁ = hasPreL cs₂) : contCond atr t a cs₁ = contCond atr t a cs₂ := by
  simp only [contCond, h]

theorem updSlots_nocont {t : String} (a : List (String × String)) (cs : List Node)
    (h : (t = "div" || t = "figure") = false) :
    ∀ sl, updSlots t a cs sl = sl
  | [] => rfl
  | (at_, o) :: r => by
    simp [updSlots, contCond_tag_false at_ a cs h, updSlots_nocont a cs h r]

theorem updSlots_noPre (t : String) (a : List (String × String)) {cs : List Node}
    (h : hasPreL cs = false) : ∀ sl, updSlots t a cs sl = sl
  | [] => rfl
  | (at_, o) :: r => by
    simp [updSlots, contCond_noPre at_ t a h, updSlots_noPre t a h r]

theorem updSlots_append (t : String) (a : List (String × String)) (cs : List Node) :
    ∀ s₁ s₂ : List (String × Option String),
      updSlots t a cs (s₁ ++ s₂) = updSlots t a cs s₁ ++ updSlots t a cs s₂
  | [], _ => rfl
  | (at_, o) :: r, s₂ => by
    simp [updSlots, updSlots_append t a cs r s₂]

theorem updSlots_congr (t : String) (a : List (String × String)) {cs₁ cs₂ : List Node}
    (h : hasPreL cs₁ = hasPreL cs₂) : ∀ sl, updSlots t a cs₁ sl = updSlots t a cs₂ sl
  | [] => rfl
  | (at_, o) :: r => by
    simp [updSlots, contCond_congr at_ t a h, updSlots_congr t a h r]

theorem clearSlots_append : ∀ s₁ s₂ : List (String × Option String),
    clearSlots (s₁ ++ s₂) = clearSlots s₁ ++ clearSlots s₂
  | [], _ => rfl
  | (at_, o) :: r, s₂ => by simp [clearSlots, clearSlots_append r s₂]

theorem clearSlots_upd (t : String) (a : List (String × String)) (cs : List Node) :
    ∀ sl, clearSlots (updSlots t a cs sl) = clearSlots sl
  | [] => rfl
  | (at_, o) :: r => by simp [updSlots, clearSlots, clearSlots_upd t a cs r]

theorem clearSlots_idem : ∀ sl, clearSlots (clearSlots sl) = clearSlots sl
  | [] => rfl
  | (at_, o) :: r => by simp [clearSlots, clearSlots_idem r]

theorem lastSome_append_single (sl : List (String × Option String)) (x : String)
    (o : Option String) :
    lastSome (sl ++ [(x, o)]) =
      match o with
      | some v => some v
      | none => lastSome sl := by
  induction sl with
  | nil => cases o <;> rfl
  | cons p r ih =>
    obtain ⟨at_, o₀⟩ := p
    rw [List.cons_append]
    show (match lastSome (r ++ [(x, o)]) with
      | some v => some v
      | none => o₀) = _
    rw [ih]
    cases o with
    | some v => rfl
    | none => rfl

theorem lastSome_none_clear : ∀ sl, lastSome sl = none → clearSlots sl = sl
  | [], _ => rfl
  | (at_, o) :: r, h => by
    simp only [lastSome] at h
    cases hr : lastSome r with
    | some v => rw [hr] at h; exact Option.noConfusion h
    | none =>
      rw [hr] at h
      have ho : o = none := h
      simp [clearSlots, ho, lastSome_none_clear r hr]

theorem lastSome_upd_pre (a : List (String × String)) (cs : List Node) (sl) :
    lastSome (updSlots "pre" a cs sl) = lastSome sl := by
  rw [updSlots_nocont a cs (by decide) sl]

mutual
theorem hasPre_wN : ∀ (sl : List (String × Option String)) (n : Node),
    hasPreN ((wN sl n).1) = hasPreN n
  | _, .text _ => rfl
  | sl, .elem t a cs => by
    simp only [wN]
    by_cases hp : t = "pre"
    · rw [if_pos hp]
      cases hw : lastSome (updSlots t a cs sl) with
      | some v => simp [hasPreN, hp]
      | none => simp [hasPreN, hp]
    · rw [if_neg hp]
      simp [hasPreN, hasPre_wL (updSlots t a cs sl) cs]
theorem hasPre_wL : ∀ (sl : List (String × Option String)) (cs : List Node),
    hasPreL ((wL sl cs).1) = hasPreL cs
  | _, [] => rfl
  | sl, c :: r => by
    simp [wL, hasPreL, hasPre_wN sl c, hasPre_wL ((wN sl c).2) r]
end

mutual
theorem hasPre_passN : ∀ (atr : String) (pend : Option String) (n : Node),
    hasPreN ((passN atr pend n).1) = hasPreN n
  | _, _, .text _ => rfl
  | atr, pend, .elem t a cs => by
    simp only [passN]
    by_cases hp : t = "pre"
    · rw [if_pos hp]
      subst hp
      rw [contCond_pre atr a cs]
      cases pend with
      | some v => simp [hasPreN]
      | none => simp [hasPreN]
    · rw [if_neg hp]
      simp [hasPreN, hasPre_passL atr _ cs]
theorem hasPre_passL : ∀ (atr : String) (pend : Option String) (cs : List Node),
    hasPreL ((passL atr pend cs).1) = hasPreL cs
  | _, _, [] => rfl
  | atr, pend, c :: r => by
    simp [passL, hasPreL, hasPre_passN atr pend c, hasPre_passL atr ((passN atr pend c).2) r]
end

mutual
theorem hasPre_s2N : ∀ n : Node, hasPreN (step2N n) = hasPreN n
  | .text _ => rfl
  | .elem t a cs => by
    simp only [step2N]
    by_cases hp : t = "pre"
    · rw [if_pos hp]
      by_cases hc : hasCodeL cs
      · rw [if_pos hc]; simp [hasPreN, hp]
      · rw [if_neg hc]
        by_cases he : (trimL (textL cs)).isEmpty
        · rw [if_pos he]; simp [hasPreN, hp]
        · rw [if_neg he]; simp [hasPreN, hp]
    · rw [if_neg hp]
      simp [hasPreN, hasPre_s2L cs]
theorem hasPre_s2L : ∀ cs : List Node, hasPreL (step2L cs) = hasPreL cs
  | [] => rfl
  | c :: r => by
    simp [step2L, hasPreL, hasPre_s2N c, hasPre_s2L r]
end

mutual
theorem slots_wN : ∀ (sl : List (String × Option String)) (n : Node),
    (wN sl n).2 = if hasPreN n then clearSlots sl else sl
  | sl, .text _ => by simp [wN, hasPreN]
  | sl, .elem t a cs => by
    simp only [wN]
    by_cases hp : t = "pre"
    · rw [if_pos hp]
      subst hp
      rw [updSlots_nocont a cs (by decide) sl]
      cases hw : lastSome sl with
      | some v =>
        simp [hasPreN]
      | none =>
        rw [slots_wL sl cs]
        have hcl := lastSome_none_clear sl hw
        by_cases hpr : hasPreL cs
        · simp [hasPreN, hpr]
        · simp [hasPreN, hpr, hcl]
    · rw [if_neg hp]
      rw [slots_wL (updSlots t a cs sl) cs]
      by_cases hpr : hasPreL cs
      · simp [hasPreN, hp, hpr, clearSlots_upd]
      · simp [hasPreN, hp, hpr, updSlots_noPre t a (Bool.eq_false_iff.mpr hpr) sl]
theorem slots_wL : ∀ (sl : List (String × Option String)) (cs : List Node),
    (wL sl cs).2 = if hasPreL cs then clearSlots sl else sl
  | sl, [] => by simp [wL, hasPreL]
  | sl, c :: r => by
    simp only [wL]
    rw [slots_wL ((wN sl c).2) r, slots_wN sl c]
    by_cases h1 : hasPreN c
    · by_cases h2 : hasPreL r
      · simp [hasPreL, h1, h2, clearSlots_idem]
      · simp [hasPreL, h1, h2]
    · by_cases h2 : hasPreL r
      · simp [hasPreL, h1, h2]
      · simp [hasPreL, h1, h2]
end

mutual
theorem pend_passN : ∀ (atr : String) (pend : Option String) (n : Node),
    (passN atr pend n).2 = if hasPreN n then none else pend
  | _, pend, .text _ => by simp [passN, hasPreN]
  | atr, pend, .elem t a cs => by
    simp only [passN]
    by_cases hp : t = "pre"
    · rw [if_pos hp]
      subst hp
      rw [contCond_pre atr a cs]
      cases pend with
      | some v => simp [hasPreN]
      | none =>
        rw [pend_passL atr none cs]
        by_cases hpr : hasPreL cs
        · simp [hasPreN, hpr]
        · simp [hasPreN, hpr]
    · rw [if_neg hp]
      rw [pend_passL atr _ cs]
      by_cases hpr : hasPreL cs
      · simp [hasPreN, hp, hpr]
      · simp [hasPreN, hp, hpr, contCond_noPre atr t a (Bool.eq_false_iff.mpr hpr)]
theorem pend_passL : ∀ (atr : String) (pend : Option String) (cs : List Node),
    (passL atr pend cs).2 = if hasPreL cs then none else pend
  | _, pend, [] => by simp [passL, hasPreL]
  | atr, pend, c :: r => by
    simp only [passL]
    rw [pend_passL atr ((passN atr pend c).2) r, pend_passN atr pend c]
    by_cases h1 : hasPreN c
    · by_cases h2 : hasPreL r
      · simp [hasPreL, h1, h2]
      · simp [hasPreL, h1, h2]
    · by_cases h2 : hasPreL r
      · simp [hasPreL, h1, h2]
      · simp [hasPreL, h1, h2]
end

theorem wN_codeEl (sl : List (String × Option String)) (v : String) :
    wN sl (codeEl v) = (codeEl v, sl) := by
  have hu : updSlots "code" ([] : List (String × String)) [Node.text v.data] sl = sl :=
    updSlots_nocont _ _ (by decide) sl
  simp [codeEl, wN, wL, hu]

theorem wL_codeEl (sl : List (String × Option String)) (v : String) :
    wL sl [codeEl v] = ([codeEl v], sl) := by
  simp [wL, wN_codeEl sl v]

theorem passN_codeEl (atr : String) (pend : Option String) (v : String) :
    passN atr pend (codeEl v) = (codeEl v, pend) := by
  have hc : contCond atr "code" ([] : List (String × String)) [Node.text v.data] = false :=
    contCond_code atr _ _
  simp [codeEl, passN, passL, hc]

theorem passL_codeEl (atr : String) (pend : Option String) (v : String) :
    passL atr pend [codeEl v] = ([codeEl v], pend) := by
  simp [passL, passN_codeEl]

theorem s2N_codeEl (v : String) : step2N (codeEl v) = codeEl v := by
  simp [codeEl, step2N, step2L]

theorem s2L_codeEl (v : String) : step2L [codeEl v] = [codeEl v] := by
  simp [step2L, s2N_codeEl]

theorem hasCode_codeEl (v : String) : hasCodeN (codeEl v) = true := by
  simp [codeEl, hasCodeN]

mutual
theorem fusionN : ∀ (sl : List (String × Option String)) (atr : String)
    (po : Option String) (n : Node),
    (passN atr po ((wN sl n).1)).1 = (wN (sl ++ [(atr, po)]) n).1
  | _, _, _, .text s => rfl
  | sl, atr, po, .elem t a cs => by
    by_cases hp : t = "pre"
    · subst hp
      have hu1 : updSlots "pre" a cs sl = sl := updSlots_nocont _ _ (by decide) sl
      have hu2 : updSlots "pre" a cs (sl ++ [(atr, po)]) = sl ++ [(atr, po)] :=
        updSlots_nocont _ _ (by decide) _
      cases po with
      | some v =>
        cases hw : lastSome sl with
        | some w =>
          simp only [wN, hu1, hu2, hw, lastSome_append_single]
          simp [passN, contCond_pre]
        | none =>
          simp only [wN, hu1, hu2, hw, lastSome_append_single]
          simp [passN, contCond_pre]
      | none =>
        cases hw : lastSome sl with
        | some w =>
          simp only [wN, hu1, hu2, hw, lastSome_append_single]
          simp [passN, contCond_pre, passL_codeEl]
        | none =>
          simp only [wN, hu1, hu2, hw, lastSome_append_single]
          simp [passN, contCond_pre, fusionL sl atr none cs]
    · have hst : hasPreL ((wL (updSlots t a cs sl) cs).1) = hasPreL cs :=
        hasPre_wL _ cs
      have hcc : contCond atr t a ((wL (updSlots t a cs sl) cs).1) = contCond atr t a cs := by
        simp only [contCond, hst]
      have hupd : updSlots t a cs (sl ++ [(atr, po)]) =
          updSlots t a cs sl ++
            [(atr, if contCond atr t a cs then some (attrOr atr a) else po)] := by
        rw [updSlots_append]
        rfl
      simp only [wN, if_neg hp]
      simp only [passN, if_neg hp, hcc]
      rw [hupd, fusionL (updSlots t a cs sl) atr _ cs]
theorem fusionL : ∀ (sl : List (String × Option String)) (atr : String)
    (po : Option String) (cs : List Node),
    (passL atr po ((wL sl cs).1)).1 = (wL (sl ++ [(atr, po)]) cs).1
  | _, _, _, [] => rfl
  | sl, atr, po, c :: r => by
    simp only [wL, passL]
    have hN := fusionN sl atr po c
    have hslot : (wN (sl ++ [(atr, po)]) c).2 =
        (wN sl c).2 ++ [(atr, (passN atr po ((wN sl c).1)).2)] := by
      rw [slots_wN, slots_wN, pend_passN, hasPre_wN]
      by_cases h1 : hasPreN c
      · simp [h1, clearSlots_append, clearSlots]
      · simp [h1]
    rw [hN, hslot]
    rw [fusionL ((wN sl c).2) atr ((passN atr po ((wN sl c).1)).2) r]
end

mutual
theorem wN_nil : ∀ n : Node, wN [] n = (n, [])
  | .text s => rfl
  | .elem t a cs => by
    have hu : updSlots t a cs [] = [] := rfl
    by_cases hp : t = "pre"
    · subst hp
      simp [wN, hu, lastSome, wL_nil cs]
    · simp [wN, hp, hu, wL_nil cs]
theorem wL_nil : ∀ cs : List Node, wL [] cs = (cs, [])
  | [] => rfl
  | c :: r => by simp [wL, wN_nil c, wL_nil r]
end

theorem step1_wL (doc : List Node) : step1L doc = (wL slots4 doc).1 := by
  have h1 : (passL "data-snippet-clipboard-copy-content" none doc).1 =
      (wL [("data-snippet-clipboard-copy-content", none)] doc).1 := by
    simpa [wL_nil] using fusionL [] "data-snippet-clipboard-copy-content" none doc
  have h2 : (passL "data-code-content" none
        ((wL [("data-snippet-clipboard-copy-content", none)] doc).1)).1 =
      (wL [("data-snippet-clipboard-copy-content", none), ("data-code-content", none)]
        doc).1 := by
    simpa using fusionL [("data-snippet-clipboard-copy-content", none)]
      "data-code-content" none doc
  have h3 : (passL "data-clipboard-text" none
        ((wL [("data-snippet-clipboard-copy-content", none), ("data-code-content", none)]
          doc).1)).1 =
      (wL [("data-snippet-clipboard-copy-content", none), ("data-code-content", none),
        ("data-clipboard-text", none)] doc).1 := by
    simpa using fusionL
      [("data-snippet-clipboard-copy-content", none), ("data-code-content", none)]
      "data-clipboard-text" none doc
  have h4 : (passL "data-source" none
        ((wL [("data-snippet-clipboard-copy-content", none), ("data-code-content", none),
          ("data-clipboard-text", none)] doc).1)).1 =
      (wL [("data-snippet-clipboard-copy-content", none), ("data-code-content", none),
        ("data-clipboard-text", none), ("data-source", none)] doc).1 := by
    simpa using fusionL
      [("data-snippet-clipboard-copy-content", none), ("data-code-content", none),
        ("data-clipboard-text", none)]
      "data-source" none doc
  show (passL "data-source" none ((passL "data-clipboard-text" none
      ((passL "data-code-content" none
        ((passL "data-snippet-clipboard-copy-content" none doc).1)).1)).1)).1 = _
  rw [h1, h2, h3, h4]
  rfl

theorem wN_pre (sl : List (String × Option String)) (a : List (String × String))
    (cs : List Node) :
    wN sl (.elem "pre" a cs) =
      match lastSome sl with
      | some v => (.elem "pre" a [codeEl v], clearSlots sl)
      | none => (.elem "pre" a (wL sl cs).1, (wL sl cs).2) := by
  have hu : updSlots "pre" a cs sl = sl := updSlots_nocont _ _ (by decide) sl
  simp only [wN, hu, if_true]

theorem wN_npre {t : String} (hp : ¬t = "pre") (sl : List (String × Option String))
    (a : List (String × String)) (cs : List Node) :
    wN sl (.elem t a cs) =
      (.elem t a (wL (updSlots t a cs sl) cs).1, (wL (updSlots t a cs sl) cs).2) := by
  simp only [wN]
  rw [if_neg hp]

theorem s2_pre (a : List (String × String)) (cs : List Node) :
    step2N (.elem "pre" a cs) =
      if hasCodeL cs then .elem "pre" a (step2L cs)
      else if (trimL (textL cs)).isEmpty then .elem "pre" a (step2L cs)
      else .elem "pre" a [codeEl ⟨textL cs⟩] := by
  simp only [step2N, if_true]

theorem s2_npre {t : String} (hp : ¬t = "pre") (a : List (String × String))
    (cs : List Node) : step2N (.elem t a cs) = .elem t a (step2L cs) := by
  simp only [step2N]
  rw [if_neg hp]

theorem slots_wL_none {sl : List (String × Option String)} (h : lastSome sl = none)
    (cs : List Node) : (wL sl cs).2 = sl := by
  rw [slots_wL]
  split
  · exact lastSome_none_clear sl h
  · rfl

mutual
theorem g2N : ∀ (sl : List (String × Option String)) (n : Node),
    wN sl (step2N ((wN sl n).1)) = (step2N ((wN sl n).1), (wN sl n).2)
  | _, .text s => rfl
  | sl, .elem t a cs => by
    by_cases hp : t = "pre"
    · subst hp
      cases hw : lastSome sl with
      | some v =>
        have h1 : wN sl (.elem "pre" a cs) = (.elem "pre" a [codeEl v], clearSlots sl) := by
          rw [wN_pre sl a cs, hw]
        have hcc : hasCodeL [codeEl v] = true := by
          simp [hasCodeL, hasCode_codeEl]
        have h3 : step2N (.elem "pre" a [codeEl v]) = .elem "pre" a [codeEl v] := by
          rw [s2_pre, if_pos hcc, s2L_codeEl]
        have h4 : wN sl (.elem "pre" a [codeEl v]) =
            (.elem "pre" a [codeEl v], clearSlots sl) := by
          rw [wN_pre sl a [codeEl v], hw]
        rw [h1, h3, h4]
      | none =>
        have h1 : wN sl (.elem "pre" a cs) =
            (.elem "pre" a (wL sl cs).1, (wL sl cs).2) := by
          rw [wN_pre sl a cs, hw]
        have hsl2 : (wL sl cs).2 = sl := slots_wL_none hw cs
        rw [h1, hsl2, s2_pre]
        by_cases hc : hasCodeL ((wL sl cs).1)
        · rw [if_pos hc]
          have h4 : wN sl (.elem "pre" a (step2L ((wL sl cs).1))) =
              (.elem "pre" a (wL sl (step2L ((wL sl cs).1))).1,
                (wL sl (step2L ((wL sl cs).1))).2) := by
            rw [wN_pre, hw]
          rw [h4, g2L sl cs, hsl2]
        · rw [if_neg hc]
          by_cases he : (trimL (textL ((wL sl cs).1))).isEmpty
          · rw [if_pos he]
            have h4 : wN sl (.elem "pre" a (step2L ((wL sl cs).1))) =
                (.elem "pre" a (wL sl (step2L ((wL sl cs).1))).1,
                  (wL sl (step2L ((wL sl cs).1))).2) := by
              rw [wN_pre, hw]
            rw [h4, g2L sl cs, hsl2]
          · rw [if_neg he]
            have h4 : wN sl (.elem "pre" a [codeEl ⟨textL ((wL sl cs).1)⟩]) =
                (.elem "pre" a (wL sl [codeEl ⟨textL ((wL sl cs).1)⟩]).1,
                  (wL sl [codeEl ⟨textL ((wL sl cs).1)⟩]).2) := by
              rw [wN_pre, hw]
            rw [h4, wL_codeEl]
    · rw [wN_npre hp sl a cs, s2_npre hp]
      have hupd : updSlots t a (step2L ((wL (updSlots t a cs sl) cs).1)) sl =
          updSlots t a cs sl := by
        apply updSlots_congr
        rw [hasPre_s2L, hasPre_wL]
      have h5 : wN sl (.elem t a (step2L ((wL (updSlots t a cs sl) cs).1))) =
          (.elem t a (wL (updSlots t a cs sl)
              (step2L ((wL (updSlots t a cs sl) cs).1))).1,
            (wL (updSlots t a cs sl) (step2L ((wL (updSlots t a cs sl) cs).1))).2) := by
        rw [wN_npre hp, hupd]
      rw [h5, g2L (updSlots t a cs sl) cs]
theorem g2L : ∀ (sl : List (String × Option String)) (cs : List Node),
    wL sl (step2L ((wL sl cs).1)) = (step2L ((wL sl cs).1), (wL sl cs).2)
  | _, [] => rfl
  | sl, c :: r => by
    have hc := g2N sl c
    have hr := g2L ((wN sl c).2) r
    simp only [wL, step2L, hc, hr]
end

theorem dropWhile_nil_of_all {p : Char → Bool} : ∀ {l : List Char}, l.all p = true →
    l.dropWhile p = []
  | [], _ => rfl
  | c :: r, h => by
    simp only [List.all_cons, Bool.and_eq_true] at h
    simp [List.dropWhile_cons, h.1, dropWhile_nil_of_all h.2]

theorem trimL_nil_of_all {l : List Char} (h : l.all jsWs = true) : trimL l = [] := by
  unfold trimL trimLeftL trimRightL
  rw [dropWhile_nil_of_all h]
  rfl

theorem all_of_dropWhile_all : ∀ {l : List Char},
    (∀ y ∈ l.dropWhile jsWs, jsWs y = true) → l.all jsWs = true
  | [], _ => rfl
  | c :: r, h => by
    by_cases hc : jsWs c = true
    · rw [List.dropWhile_cons, if_pos hc] at h
      simp [List.all_cons, hc, all_of_dropWhile_all h]
    · exfalso
      rw [List.dropWhile_cons, if_neg hc] at h
      exact hc (h c (by simp))

theorem all_of_trimL_nil {l : List Char} (h : trimL l = []) : l.all jsWs = true := by
  unfold trimL trimRightL trimLeftL at h
  rw [List.reverse_eq_nil_iff, List.dropWhile_eq_nil_iff] at h
  apply all_of_dropWhile_all
  intro y hy
  exact h y (List.mem_reverse.mpr hy)

mutual
theorem s2_ws_idN : ∀ n : Node, (textN n).all jsWs = true → step2N n = n
  | .text s, _ => rfl
  | .elem t a cs, h => by
    have hcs : (textL cs).all jsWs = true := h
    by_cases hp : t = "pre"
    · subst hp
      rw [s2_pre]
      by_cases hc : hasCodeL cs
      · rw [if_pos hc, s2_ws_idL cs hcs]
      · have he : (trimL (textL cs)).isEmpty = true := by
          rw [trimL_nil_of_all hcs]
          rfl
        rw [if_neg hc, if_pos he, s2_ws_idL cs hcs]
    · rw [s2_npre hp, s2_ws_idL cs hcs]
theorem s2_ws_idL : ∀ cs : List Node, (textL cs).all jsWs = true → step2L cs = cs
  | [], _ => rfl
  | c :: r, h => by
    rw [show textL (c :: r) = textN c ++ textL r from rfl, List.all_append,
      Bool.and_eq_true] at h
    simp [step2L, s2_ws_idN c h.1, s2_ws_idL r h.2]
end

mutual
theorem hasCode_s2N : ∀ n : Node, hasCodeN n = true → hasCodeN (step2N n) = true
  | .text s, h => by exact absurd h (by simp [hasCodeN])
  | .elem t a cs, h => by
    simp only [hasCodeN, Bool.or_eq_true, decide_eq_true_eq] at h
    by_cases hp : t = "pre"
    · subst hp
      rcases h with h | h
      · exact absurd h (by decide)
      · have hc2 := hasCode_s2L cs h
        rw [s2_pre, if_pos h]
        simp [hasCodeN, hc2]
    · rw [s2_npre hp]
      rcases h with h | h
      · simp [hasCodeN, h]
      · simp [hasCodeN, hasCode_s2L cs h]
theorem hasCode_s2L : ∀ cs : List Node, hasCodeL cs = true → hasCodeL (step2L cs) = true
  | [], h => by exact absurd h (by simp [hasCodeL])
  | c :: r, h => by
    simp only [hasCodeL, Bool.or_eq_true] at h
    rcases h with h | h
    · simp [step2L, hasCodeL, hasCode_s2N c h]
    · simp [step2L, hasCodeL, hasCode_s2L r h]
end

mutual
theorem s2_idemN : ∀ n : Node, step2N (step2N n) = step2N n
  | .text s => rfl
  | .elem t a cs => by
    by_cases hp : t = "pre"
    · subst hp
      rw [s2_pre]
      by_cases hc : hasCodeL cs
      · rw [if_pos hc, s2_pre, if_pos (hasCode_s2L cs hc), s2_idemL cs]
      · rw [if_neg hc]
        by_cases he : (trimL (textL cs)).isEmpty
        · rw [if_pos he]
          have hws : (textL cs).all jsWs = true := by
            apply all_of_trimL_nil
            rwa [List.isEmpty_iff] at he
          rw [s2_ws_idL cs hws, s2_pre, if_neg hc, if_pos he, s2_ws_idL cs hws]
        · rw [if_neg he]
          have hcc : hasCodeL [codeEl ⟨textL cs⟩] = true := by
            simp [hasCodeL, hasCode_codeEl]
          rw [s2_pre, if_pos hcc, s2L_codeEl]
    · rw [s2_npre hp, s2_npre hp, s2_idemL cs]
theorem s2_idemL : ∀ cs : List Node, step2L (step2L cs) = step2L cs
  | [] => rfl
  | c :: r => by simp [step2L, s2_idemN c, s2_idemL r]
end

/-- **C4** (corrected): `normalizeCodeBlocks` is idempotent on every
document — re-running it is a fixed point.  The other half of the claim is
false: `enhanceStructure` is not idempotent, because the pseudo-heading
pass runs after heading normalization, so a second run renormalizes the
freshly created `h3` (see the counterexample). -/
theorem C4_normalizeCodeBlocks_idempotent (doc : List Node) :
    normalizeCodeBlocksL (normalizeCodeBlocksL doc) = normalizeCodeBlocksL doc := by
  unfold normalizeCodeBlocksL
  rw [step1_wL doc, step1_wL (step2L ((wL slots4 doc).1))]
  have hg := g2L slots4 doc
  simp only [hg]
  exact s2_idemL ((wL slots4 doc).1)

/-- **C4 counterexample**: `enhanceStructure` is not idempotent — on
`<div class="title">T</div>` the first run produces `<h3>T</h3>`, and the
second run renormalizes it to `<h1>T</h1>`. -/
theorem C4_counterexample :
    enhanceStructureL c3Doc = [.elem "h3" [] [.text "T".data]] ∧
      enhanceStructureL (enhanceStructureL c3Doc) = [.elem "h1" [] [.text "T".data]] ∧
      enhanceStructureL (enhanceStructureL c3Doc) ≠ enhanceStructureL c3Doc := by
  refine ⟨rfl, rfl, fun h => ?_⟩
  have h' : ([Node.elem "h1" [] [.text "T".data]] : List Node) =
      [Node.elem "h3" [] [.text "T".data]] := h
  injection h' with h1 h2
  injection h1 with ht ha hc
  exact absurd ht (by decide)

end GetMd
